import Mathlib

/-!
# Cone boundaries: `CGAL/Compute_cone_boundaries_2.h`

A shallow embedding of the two `operator()` bodies of `Compute_cone_boundaries_2`
(the general, trigonometric one and the specialisation for
`Exact_predicates_exact_constructions_kernel_with_sqrt`), followed by the properties
proved about them.

Conventions of the embedding.

* The number type `FT` is a parameter.  Everything translated from the header is
  computable and can be run over `ℚ`; the idealised statements instantiate `FT := ℝ`.
* `unsigned int` has 32 bits: its values are the natural numbers up to `UINT_MAX`.  The loop
  of lines 171-175, whose counter is compared with `cone_number` by `<=`, is run with the
  counter kept modulo `2^32` (`unsigned_for_le`): for `cone_number = UINT_MAX` it is never
  left, and the call is then marked `diverged`.  The other loops are left before their
  counter can wrap (`i < cone_number` in the general functor; `i <= m` and `i < m` with
  `m ≤ 2^31` in the specialisation) and are run on plain natural numbers.
* Resource limits (memory, time) are not modelled.
* The output iterator is the list of directions written so far (`State.result`);
  `*result++ = ray` appends one direction, and the returned iterator is the end of that list.
* `std::exit(1)` after the message "The number of cones should be larger than 1!" is
  the error `InvalidConeCount`; the state is returned as it was when `exit` was called.
* Every call `root_of(k, a.begin(), a.end())` is logged by its rank `k` in
  `State.root_of_calls`, and every `Transformation(...)` that is built and applied is logged in
  `State.transformations`.
-/

namespace CGAL

/-! ## Kernel objects -/

/-- Modelled from the spec: the direction value `Kernel::Direction_2` (declared in the kernel,
outside this header): a vector `(dx, dy)` standing for its orientation. -/
structure Direction_2 (FT : Type) where
  dx : FT
  dy : FT
deriving DecidableEq

/-- Modelled from the spec: negation of a direction, `-ray` (the antipodal ray). -/
instance Direction_2.instNeg {FT : Type} [Neg FT] : Neg (Direction_2 FT) :=
  ⟨fun d => ⟨-d.dx, -d.dy⟩⟩

/-- Modelled from the spec: two vectors stand for the same direction when they differ by a
positive scalar factor (the equality of `Direction_2`). -/
def Direction_2.same_direction {FT : Type} [Mul FT] [Zero FT] [LT FT]
    (d e : Direction_2 FT) : Prop :=
  ∃ t : FT, 0 < t ∧ e.dx = t * d.dx ∧ e.dy = t * d.dy

/-- Modelled from the spec: the rotation primitive `Kernel::Aff_transformation_2`, built from
the four entries `m00 m01 m10 m11` of its linear part. -/
structure Aff_transformation_2 (FT : Type) where
  m00 : FT
  m01 : FT
  m10 : FT
  m11 : FT

/-- Modelled from the spec: `Transformation(m00, m01, m10, m11)(d)`, the matrix applied to the
vector of the direction. -/
def Aff_transformation_2.transform {FT : Type} [Add FT] [Mul FT]
    (t : Aff_transformation_2 FT) (d : Direction_2 FT) : Direction_2 FT :=
  ⟨t.m00 * d.dx + t.m01 * d.dy, t.m10 * d.dx + t.m11 * d.dy⟩

/-! ## Polynomials as coefficient sequences -/

/-- Modelled from the spec: `CGAL::Polynomial<FT>` (declared in `CGAL/Polynomial.h`): "an ordered
sequence of coefficients over an exact numeric field; degree = length − 1".  The constant term
comes first, as in the range `a.begin() .. a.end()`. -/
structure Polynomial (FT : Type) where
  coeff : List FT
deriving DecidableEq

namespace Polynomial

variable {FT : Type}

/-- Modelled from the spec: the coefficientwise sum of two coefficient sequences of
`CGAL::Polynomial`, the shorter one padded with zeros. -/
def add_coeffs [Add FT] : List FT → List FT → List FT
  | [], q => q
  | a :: p, [] => a :: p
  | a :: p, b :: q => (a + b) :: add_coeffs p q

/-- Modelled from the spec: a coefficient sequence of `CGAL::Polynomial` with all its
coefficients multiplied by `c`. -/
def scale_coeffs [Mul FT] (c : FT) (p : List FT) : List FT :=
  p.map (fun a => c * a)

/-- Modelled from the spec: the convolution product of two coefficient sequences of
`CGAL::Polynomial`. -/
def mul_coeffs [Add FT] [Mul FT] [Zero FT] : List FT → List FT → List FT
  | [], _ => []
  | a :: p, q => add_coeffs (scale_coeffs a q) (0 :: mul_coeffs p q)

/-- Modelled from the spec: a coefficient sequence of `CGAL::Polynomial` without the zero
coefficients at its high end. -/
def strip [Zero FT] [DecidableEq FT] : List FT → List FT
  | [] => []
  | a :: p => if strip p = [] ∧ a = 0 then [] else a :: strip p

/-- Modelled from the spec: the normal form in which "degree = length − 1": no zero leading
coefficient, and the zero polynomial is the single coefficient `0`. -/
def reduce [Zero FT] [DecidableEq FT] (p : List FT) : List FT :=
  if strip p = [] then [0] else strip p

/-- Modelled from the spec: `Polynomial<FT>(c)`, the constant polynomial. -/
def const [Zero FT] [DecidableEq FT] (c : FT) : Polynomial FT :=
  ⟨reduce [c]⟩

/-- Modelled from the spec: `CGAL::shift(p, k)`, the product of `p` by the `k`-th power of the
variable. -/
def shift [Zero FT] [DecidableEq FT] (p : Polynomial FT) (k : ℕ) : Polynomial FT :=
  ⟨reduce (List.replicate k 0 ++ p.coeff)⟩

/-- Modelled from the spec: `c * p` for a number `c`. -/
def smul [Mul FT] [Zero FT] [DecidableEq FT] (c : FT) (p : Polynomial FT) : Polynomial FT :=
  ⟨reduce (scale_coeffs c p.coeff)⟩

/-- Modelled from the spec: `p - q`. -/
def sub [Add FT] [Neg FT] [Zero FT] [DecidableEq FT] (p q : Polynomial FT) : Polynomial FT :=
  ⟨reduce (add_coeffs p.coeff (q.coeff.map (fun b => -b)))⟩

/-- Modelled from the spec: `p * q`. -/
def mul [Add FT] [Mul FT] [Zero FT] [DecidableEq FT] (p q : Polynomial FT) : Polynomial FT :=
  ⟨reduce (mul_coeffs p.coeff q.coeff)⟩

/-- Modelled from the spec: the value at `x` of the polynomial with the coefficients `p`
(Horner scheme); `CGAL::Polynomial::evaluate` is declared outside this header. -/
def eval_coeffs [Add FT] [Mul FT] [Zero FT] (p : List FT) (x : FT) : FT :=
  p.foldr (fun a acc => a + x * acc) 0

end Polynomial

/-! ## The state a call acts on -/

/-- The ways a call can go wrong. -/
inductive Error where
  /-- The branch `cone_number < 2`: message and `std::exit(1)`. -/
  | InvalidConeCount
  /-- The vector `ray_store` read at an index that is not below its size. -/
  | OutOfRange
deriving DecidableEq

/-- What a call of `operator()` acts on. -/
structure State (FT : Type) where
  /-- The directions written through the output iterator, oldest first. -/
  result : List (Direction_2 FT)
  /-- The local vector `ray_store`. -/
  ray_store : List (Direction_2 FT)
  /-- The ranks `k` of the calls `root_of(k, ...)`, oldest first. -/
  root_of_calls : List ℕ
  /-- The error the call stopped on, if any. -/
  error : Option Error
  /-- The transformations built and applied by the call, oldest first. -/
  transformations : List (Aff_transformation_2 FT)
  /-- Whether the call is in a loop that is never left, so that it does not return. -/
  diverged : Bool

namespace State

variable {FT : Type}

/-- The state before a call, with `already` written before through the same iterator. -/
def init (already : List (Direction_2 FT)) : State FT :=
  ⟨already, [], [], none, [], false⟩

/-- The statement `*result++ = ray`. -/
def write (s : State FT) (ray : Direction_2 FT) : State FT :=
  { s with result := s.result ++ [ray] }

/-- The statement `ray_store.push_back(ray)`. -/
def push_back (s : State FT) (ray : Direction_2 FT) : State FT :=
  { s with ray_store := s.ray_store ++ [ray] }

/-- One more call of `root_of`, with rank `k`. -/
def log_root_of (s : State FT) (k : ℕ) : State FT :=
  { s with root_of_calls := s.root_of_calls ++ [k] }

/-- One more transformation built and applied. -/
def log_transformation (s : State FT) (t : Aff_transformation_2 FT) : State FT :=
  { s with transformations := s.transformations ++ [t] }

/-- The position of the output iterator. -/
def position (s : State FT) : ℕ :=
  s.result.length

end State

/-- The loop `for (i = first; i < bound; i++) body`. -/
def for_lt {σ : Type} (first bound : ℕ) (body : ℕ → σ → σ) (s : σ) : σ :=
  (List.range' first (bound - first)).foldl (fun acc i => body i acc) s

/-- The loop `for (i = first; i <= last; i++) body`. -/
def for_le {σ : Type} (first last : ℕ) (body : ℕ → σ → σ) (s : σ) : σ :=
  (List.range' first (last + 1 - first)).foldl (fun acc i => body i acc) s

/-- The largest value of an `unsigned int` of 32 bits. -/
def UINT_MAX : ℕ := 4294967295

/-- The loop `for (unsigned int i = first; i <= last; ++i) body` as the machine runs it, from
the counter value `i`: the counter is incremented modulo `2^32`.  At most `fuel` tests of the
condition are made, and the result is `none` when the loop has not been left by then. -/
def unsigned_for_le {σ : Type} (last : ℕ) (body : ℕ → σ → σ) : ℕ → ℕ → σ → Option σ
  | 0, _, _ => none
  | fuel + 1, i, s =>
    if i ≤ last then unsigned_for_le last body fuel ((i + 1) % (UINT_MAX + 1)) (body i s)
    else some s

/-! ## The general functor: approximate computation -/

namespace number_type_config

/-- Modelled from the spec: the constant `CGAL_PI` of `CGAL/number_type_config.h` (a header
that is not among the given sources), the "approximate Pi" of the comment of lines 50-51: the
value of the decimal literal `3.14159265358979323846` of that macro. -/
def CGAL_PI : ℚ := 3.14159265358979323846

end number_type_config

namespace Compute_cone_boundaries_2

variable {FT : Type} [Field FT]

/-- The body of the loop of lines 111-116. -/
def loop_body (sin cos : FT → FT) (cone_angle : FT) (initial_direction : Direction_2 FT)
    (i : ℕ) (s : State FT) : State FT :=
  let sin_value := sin ((i : FT) * cone_angle)
  let cos_value := cos ((i : FT) * cone_angle)
  let t := Aff_transformation_2.mk cos_value (-sin_value) sin_value cos_value
  let s := s.log_transformation t
  let ray := t.transform initial_direction
  s.write ray

/-- The general `operator()` (lines 99-119), with the constant `CGAL_PI` and the functions
`std::sin`, `std::cos` as parameters. -/
def operator_call (CGAL_PI : FT) (sin cos : FT → FT) (cone_number : ℕ)
    (initial_direction : Direction_2 FT) (s : State FT) : State FT :=
  if cone_number < 2 then
    { s with error := some Error.InvalidConeCount }
  else
    let s := s.write initial_direction
    let cone_angle := 2 * CGAL_PI / (cone_number : FT)
    for_lt 1 cone_number (loop_body sin cos cone_angle initial_direction) s

end Compute_cone_boundaries_2

/-! ## The specialisation: exact computation -/

namespace Compute_cone_boundaries_2_exact

variable {FT : Type} [Field FT] [DecidableEq FT]

/-- The polynomial `x` of line 168: `shift(Polynomial<FT>(-1), 1)`. -/
def x : Polynomial FT :=
  Polynomial.shift (Polynomial.const (-1)) 1

/-- The polynomial `double_x` of line 169. -/
def double_x : Polynomial FT :=
  Polynomial.smul 2 x

/-- The body of the loop of lines 171-175, on the pair `(a, b)`. -/
def recurrence_body (_i : ℕ) (ab : Polynomial FT × Polynomial FT) :
    Polynomial FT × Polynomial FT :=
  let c := Polynomial.sub (Polynomial.mul double_x ab.2) ab.1
  (ab.2, c)

/-- The pair `(a, b)` after the `cone_number - 1` steps of the body of the loop of lines
171-175, from `a = 1` and `b = x`: the pair with which that loop is left when it is left
(`recurrence_run` is the loop as the machine runs it). -/
def recurrence (cone_number : ℕ) : Polynomial FT × Polynomial FT :=
  for_le 2 cone_number recurrence_body (Polynomial.const 1, x)

/-- The polynomial `a` after line 176, `a = b - 1`, for the pair `recurrence`: the one handed
to `root_of`. -/
def polynomial (cone_number : ℕ) : Polynomial FT :=
  Polynomial.sub (recurrence cone_number).2 (Polynomial.const 1)

/-- The loop of lines 171-175 as the machine runs it, `for (unsigned int i = 2;
i <= cone_number; ++i)`: the pair `(a, b)` with which the loop is left, or `none` when it is
not left.  A counter of 32 bits has `2^32` values, so a loop of this kind that has not been
left after `2^32` tests of its condition is never left. -/
def recurrence_run (cone_number : ℕ) : Option (Polynomial FT × Polynomial FT) :=
  unsigned_for_le cone_number recurrence_body (UINT_MAX + 1) 2 (Polynomial.const 1, x)

/-- The value `m` set by lines 180-187. -/
def half (cone_number : ℕ) : ℕ :=
  if cone_number % 2 = 0 then cone_number / 2 else cone_number / 2 + 1

/-- The flag `is_even` set by lines 180-187. -/
def is_even (cone_number : ℕ) : Bool :=
  if cone_number % 2 = 0 then true else false

/-- The body of the loop of lines 196-203. -/
def first_body (root_of : ℕ → List FT → FT) (sqrt : FT → FT) (a : Polynomial FT)
    (initial_direction : Direction_2 FT) (even : Bool) (i : ℕ) (s : State FT) : State FT :=
  let cos_value := - root_of i a.coeff
  let s := s.log_root_of i
  let sin_value := sqrt (1 - cos_value * cos_value)
  let t := Aff_transformation_2.mk cos_value (-sin_value) sin_value cos_value
  let s := s.log_transformation t
  let ray := t.transform initial_direction
  let s := s.write ray
  if even then s.push_back ray else s

/-- The body of the loop of lines 207-209. -/
def even_body (i : ℕ) (s : State FT) : State FT :=
  match s.ray_store[i]? with
  | some ray => s.write (-ray)
  | none => { s with error := some Error.OutOfRange }

/-- The body of the loop of lines 211-216. -/
def odd_body (root_of : ℕ → List FT → FT) (sqrt : FT → FT) (a : Polynomial FT)
    (initial_direction : Direction_2 FT) (m : ℕ) (i : ℕ) (s : State FT) : State FT :=
  let cos_value := - root_of (m - i) a.coeff
  let s := s.log_root_of (m - i)
  let sin_value := - sqrt (1 - cos_value * cos_value)
  let t := Aff_transformation_2.mk cos_value (-sin_value) sin_value cos_value
  let s := s.log_transformation t
  let ray := t.transform initial_direction
  s.write ray

/-- The statements of lines 176-219, after the loop of the recurrence has been left with the
pair `ab`. -/
def after_recurrence (root_of : ℕ → List FT → FT) (sqrt : FT → FT) (cone_number : ℕ)
    (initial_direction : Direction_2 FT) (ab : Polynomial FT × Polynomial FT) (s : State FT) :
    State FT :=
  let a : Polynomial FT := Polynomial.sub ab.2 (Polynomial.const 1)
  let m := half cone_number
  let even := is_even cone_number
  let s := { s with ray_store := [] }
  let s := for_le 1 m (first_body root_of sqrt a initial_direction even) s
  if even then
    for_lt 0 m even_body s
  else
    for_lt 0 (m - 1) (odd_body root_of sqrt a initial_direction m) s

/-- The specialised `operator()` (lines 155-221), with the functions `root_of` and `sqrt` of
the number type as parameters.  When the loop of the recurrence is never left, nothing after
it is run and the call is marked `diverged`. -/
def operator_call (root_of : ℕ → List FT → FT) (sqrt : FT → FT) (cone_number : ℕ)
    (initial_direction : Direction_2 FT) (s : State FT) : State FT :=
  if cone_number < 2 then
    { s with error := some Error.InvalidConeCount }
  else
    match (recurrence_run cone_number : Option (Polynomial FT × Polynomial FT)) with
    | none => { s with diverged := true }
    | some ab => after_recurrence root_of sqrt cone_number initial_direction ab s

end Compute_cone_boundaries_2_exact

end CGAL

/-! ## Specification-level definitions -/

namespace ConeBoundaries

open CGAL

/-- The vector of `d` turned counterclockwise by the angle `θ`. -/
noncomputable def rotate (θ : ℝ) (d : Direction_2 ℝ) : Direction_2 ℝ :=
  ⟨Real.cos θ * d.dx - Real.sin θ * d.dy, Real.sin θ * d.dx + Real.cos θ * d.dy⟩

/-- The vector of `d` turned by the pair `(cos_value, sin_value)`, as the header does it:
`Transformation(cos_value, -sin_value, sin_value, cos_value)(d)`. -/
def rotate_by {FT : Type} [Field FT] (cos_value sin_value : FT) (d : Direction_2 FT) :
    Direction_2 FT :=
  (Aff_transformation_2.mk cos_value (-sin_value) sin_value cos_value).transform d

/-- The cone set of the spec: the `n` vectors `d` turned by `0`, `1`, ..., `n - 1` times the
cone angle `2π/n`. -/
noncomputable def cone_set (n : ℕ) (d : Direction_2 ℝ) : List (Direction_2 ℝ) :=
  (List.range n).map (fun k : ℕ => rotate ((k : ℝ) * (2 * Real.pi / (n : ℝ))) d)

/-- The transformation built by the iteration `i` of the loop of lines 111-116. -/
def approx_transformation {FT : Type} [Field FT] (CGAL_PI : FT) (sin cos : FT → FT)
    (cone_number : ℕ) (i : ℕ) : Aff_transformation_2 FT :=
  Aff_transformation_2.mk (cos ((i : FT) * (2 * CGAL_PI / (cone_number : FT))))
    (-sin ((i : FT) * (2 * CGAL_PI / (cone_number : FT))))
    (sin ((i : FT) * (2 * CGAL_PI / (cone_number : FT))))
    (cos ((i : FT) * (2 * CGAL_PI / (cone_number : FT))))

/-- The transformation built by the loop of lines 196-203 when it asks for the root of rank
`k`. -/
def first_transformation {FT : Type} [Field FT] (root_of : ℕ → List FT → FT) (sqrt : FT → FT)
    (a : CGAL.Polynomial FT) (k : ℕ) : Aff_transformation_2 FT :=
  Aff_transformation_2.mk (- root_of k a.coeff)
    (- sqrt (1 - (- root_of k a.coeff) * (- root_of k a.coeff)))
    (sqrt (1 - (- root_of k a.coeff) * (- root_of k a.coeff)))
    (- root_of k a.coeff)

/-- The transformation built by the loop of lines 211-216 when it asks for the root of rank
`k`. -/
def odd_transformation {FT : Type} [Field FT] (root_of : ℕ → List FT → FT) (sqrt : FT → FT)
    (a : CGAL.Polynomial FT) (k : ℕ) : Aff_transformation_2 FT :=
  Aff_transformation_2.mk (- root_of k a.coeff)
    (- - sqrt (1 - (- root_of k a.coeff) * (- root_of k a.coeff)))
    (- sqrt (1 - (- root_of k a.coeff) * (- root_of k a.coeff)))
    (- root_of k a.coeff)

/-- The direction written by the iteration `i` of the loop of lines 111-116. -/
def approx_ray {FT : Type} [Field FT] (CGAL_PI : FT) (sin cos : FT → FT) (cone_number : ℕ)
    (d : Direction_2 FT) (i : ℕ) : Direction_2 FT :=
  (Aff_transformation_2.mk (cos ((i : FT) * (2 * CGAL_PI / (cone_number : FT))))
    (-sin ((i : FT) * (2 * CGAL_PI / (cone_number : FT))))
    (sin ((i : FT) * (2 * CGAL_PI / (cone_number : FT))))
    (cos ((i : FT) * (2 * CGAL_PI / (cone_number : FT))))).transform d

/-- The direction written by the loop of lines 196-203 when it asks for the root of rank `k`. -/
def first_ray {FT : Type} [Field FT] (root_of : ℕ → List FT → FT) (sqrt : FT → FT)
    (a : CGAL.Polynomial FT) (d : Direction_2 FT) (k : ℕ) : Direction_2 FT :=
  (Aff_transformation_2.mk (- root_of k a.coeff)
    (- sqrt (1 - (- root_of k a.coeff) * (- root_of k a.coeff)))
    (sqrt (1 - (- root_of k a.coeff) * (- root_of k a.coeff)))
    (- root_of k a.coeff)).transform d

/-- The direction written by the loop of lines 211-216 when it asks for the root of rank `k`. -/
def odd_ray {FT : Type} [Field FT] (root_of : ℕ → List FT → FT) (sqrt : FT → FT)
    (a : CGAL.Polynomial FT) (d : Direction_2 FT) (k : ℕ) : Direction_2 FT :=
  (Aff_transformation_2.mk (- root_of k a.coeff)
    (- - sqrt (1 - (- root_of k a.coeff) * (- root_of k a.coeff)))
    (- sqrt (1 - (- root_of k a.coeff) * (- root_of k a.coeff)))
    (- root_of k a.coeff)).transform d

end ConeBoundaries

namespace CGAL

/-- Modelled from the spec: what the root-isolation oracle returns, "the exact k-th smallest
real root of a polynomial": `r` is a real root of the polynomial with the coefficients `coeffs`
and exactly `k - 1` real roots lie below it (roots are counted as points of the line). -/
def is_kth_smallest_root (coeffs : List ℝ) (k : ℕ) (r : ℝ) : Prop :=
  Polynomial.eval_coeffs coeffs r = 0 ∧
    {y : ℝ | Polynomial.eval_coeffs coeffs y = 0 ∧ y < r}.Finite ∧
    {y : ℝ | Polynomial.eval_coeffs coeffs y = 0 ∧ y < r}.ncard + 1 = k

/-- Modelled from the spec: the root-isolation oracle `CGAL::root_of(k, begin, end)` over the
real numbers (declared with the number type, outside this header): the `k`-th smallest real
root of the polynomial whose coefficients are the range, when there is one. -/
noncomputable def root_of (k : ℕ) (coeffs : List ℝ) : ℝ :=
  @dite ℝ (∃ r, is_kth_smallest_root coeffs k r) (Classical.propDecidable _)
    (fun h => Classical.choose h) (fun _ => 0)

end CGAL

namespace ConeBoundaries

/-- The polynomial, in the sense of the library, that a coefficient sequence stands for. -/
noncomputable def to_polynomial {FT : Type} [Semiring FT] : List FT → Polynomial FT
  | [] => 0
  | a :: p => Polynomial.C a + Polynomial.X * to_polynomial p

/-- A root oracle that answers from a fixed table, for running the exact strategy over `ℚ`. -/
def scripted_root_of (k : ℕ) (_coeffs : List ℚ) : ℚ :=
  [-1, 0, 1].getD (k - 1) 0

/-- The exact strategy over the real numbers: `root_of` the `k`-th smallest real root and
`sqrt` the exact non-negative square root, on an output that is empty before the call. -/
noncomputable def exact (cone_number : ℕ) (d : CGAL.Direction_2 ℝ) : CGAL.State ℝ :=
  CGAL.Compute_cone_boundaries_2_exact.operator_call CGAL.root_of Real.sqrt cone_number d
    (CGAL.State.init [])

/-- The approximate strategy idealised: the number π in place of the constant `CGAL_PI` and
the real sine and cosine in place of `std::sin` and `std::cos`, on an output that is empty
before the call.  The header's own constant is not π (see `approximate_header`), and neither
are its `double` functions the real ones. -/
noncomputable def approximate (cone_number : ℕ) (d : CGAL.Direction_2 ℝ) : CGAL.State ℝ :=
  CGAL.Compute_cone_boundaries_2.operator_call Real.pi Real.sin Real.cos cone_number d
    (CGAL.State.init [])

/-- The determinant of the linear part of a transformation. -/
def determinant {FT : Type} [Field FT] (t : CGAL.Aff_transformation_2 FT) : FT :=
  t.m00 * t.m11 - t.m01 * t.m10

/-- The squared length of the vector of a direction. -/
def squared_length {FT : Type} [Field FT] (d : CGAL.Direction_2 FT) : FT :=
  d.dx * d.dx + d.dy * d.dy

/-- The value `cos_value` of the exact strategy over the real numbers when it asks for the root
of rank `k` (lines 197 and 212). -/
noncomputable def exact_cos_value (cone_number k : ℕ) : ℝ :=
  - CGAL.root_of k (CGAL.Compute_cone_boundaries_2_exact.polynomial cone_number :
    CGAL.Polynomial ℝ).coeff

/-- An oracle of another kind, which ranks the real roots with their multiplicities: the
`k`-th entry of the increasing list of the real roots in which every root is repeated as often
as its multiplicity says. -/
noncomputable def root_of_with_multiplicity (k : ℕ) (coeffs : List ℝ) : ℝ :=
  (Multiset.sort (fun a b : ℝ => a ≤ b) (to_polynomial coeffs).roots).getD (k - 1) 0

/-- The exact strategy over the real numbers on the oracle that ranks roots with their
multiplicities, on an output that is empty before the call. -/
noncomputable def exact_with_multiplicity (cone_number : ℕ) (d : CGAL.Direction_2 ℝ) :
    CGAL.State ℝ :=
  CGAL.Compute_cone_boundaries_2_exact.operator_call root_of_with_multiplicity Real.sqrt
    cone_number d (CGAL.State.init [])

end ConeBoundaries

/-! ## Loops -/

namespace ConeBoundaries

open CGAL

section loops

variable {FT : Type}

theorem UINT_MAX_eq : UINT_MAX = 4294967295 := rfl

/-- A loop on a 32-bit counter whose bound is below `UINT_MAX` is left, after the iterations
of the same loop on natural numbers. -/
theorem unsigned_for_le_eq {σ : Type} (last : ℕ) (body : ℕ → σ → σ) (hlast : last < UINT_MAX)
    (fuel i : ℕ) (s : σ) (hi : i ≤ last + 1) (hfuel : last + 1 - i < fuel) :
    unsigned_for_le last body fuel i s
      = some ((List.range' i (last + 1 - i)).foldl (fun acc j => body j acc) s) := by
  induction fuel generalizing i s with
  | zero => omega
  | succ fuel ih =>
    rw [unsigned_for_le]
    rw [UINT_MAX_eq] at hlast
    by_cases hc : i ≤ last
    · have hmod : (i + 1) % (UINT_MAX + 1) = i + 1 := by
        rw [UINT_MAX_eq]
        exact Nat.mod_eq_of_lt (by omega)
      have hlen : last + 1 - i = (last + 1 - (i + 1)) + 1 := by omega
      rw [if_pos hc, hmod, ih (i + 1) (body i s) (by omega) (by omega), hlen,
        List.range'_succ, List.foldl_cons]
    · have hlen : last + 1 - i = 0 := by omega
      rw [if_neg hc, hlen]
      rfl

/-- A loop on a 32-bit counter whose bound is `UINT_MAX` or more is never left, whatever the
fuel. -/
theorem unsigned_for_le_none {σ : Type} (last : ℕ) (body : ℕ → σ → σ) (hlast : UINT_MAX ≤ last)
    (fuel i : ℕ) (s : σ) (hi : i < UINT_MAX + 1) :
    unsigned_for_le last body fuel i s = none := by
  induction fuel generalizing i s with
  | zero => rfl
  | succ fuel ih =>
    have hc : i ≤ last := by omega
    rw [unsigned_for_le, if_pos hc]
    exact ih _ _ (Nat.mod_lt _ (by rw [UINT_MAX_eq]; omega))

theorem foldl_loop_body [Field FT] (CGAL_PI : FT) (sin cos : FT → FT) (n : ℕ)
    (d : Direction_2 FT) (l : List ℕ) (s : State FT) :
    l.foldl (fun acc i =>
        Compute_cone_boundaries_2.loop_body sin cos (2 * CGAL_PI / (n : FT)) d i acc) s
      = { s with
          result := s.result ++ l.map (approx_ray CGAL_PI sin cos n d),
          transformations := s.transformations
            ++ l.map (approx_transformation CGAL_PI sin cos n) } := by
  induction l generalizing s with
  | nil => simp
  | cons i l ih =>
    rw [List.foldl_cons, ih]
    simp [Compute_cone_boundaries_2.loop_body, State.write, State.log_transformation,
      approx_ray, approx_transformation]

theorem foldl_first_body [Field FT] (root_of : ℕ → List FT → FT) (sqrt : FT → FT)
    (a : CGAL.Polynomial FT) (d : Direction_2 FT) (even : Bool) (l : List ℕ) (s : State FT) :
    l.foldl (fun acc i => Compute_cone_boundaries_2_exact.first_body root_of sqrt a d even i acc) s
      = { result := s.result ++ l.map (first_ray root_of sqrt a d),
          ray_store := s.ray_store ++ (if even then l.map (first_ray root_of sqrt a d) else []),
          root_of_calls := s.root_of_calls ++ l,
          error := s.error,
          transformations := s.transformations ++ l.map (first_transformation root_of sqrt a),
          diverged := s.diverged } := by
  induction l generalizing s with
  | nil => cases even <;> simp
  | cons i l ih =>
    rw [List.foldl_cons, ih]
    cases even <;>
      simp [Compute_cone_boundaries_2_exact.first_body, State.write, State.push_back,
        State.log_root_of, State.log_transformation, first_ray, first_transformation]

theorem foldl_odd_body [Field FT] (root_of : ℕ → List FT → FT) (sqrt : FT → FT)
    (a : CGAL.Polynomial FT) (d : Direction_2 FT) (m : ℕ) (l : List ℕ) (s : State FT) :
    l.foldl (fun acc i => Compute_cone_boundaries_2_exact.odd_body root_of sqrt a d m i acc) s
      = { result := s.result ++ l.map (fun i => odd_ray root_of sqrt a d (m - i)),
          ray_store := s.ray_store,
          root_of_calls := s.root_of_calls ++ l.map (fun i => m - i),
          error := s.error,
          transformations := s.transformations
            ++ l.map (fun i => odd_transformation root_of sqrt a (m - i)),
          diverged := s.diverged } := by
  induction l generalizing s with
  | nil => simp
  | cons i l ih =>
    rw [List.foldl_cons, ih]
    simp [Compute_cone_boundaries_2_exact.odd_body, State.write, State.log_root_of,
      State.log_transformation, odd_ray, odd_transformation]

theorem foldl_even_body [Field FT] (l : List ℕ) (s : State FT)
    (h : ∀ i ∈ l, i < s.ray_store.length) :
    l.foldl (fun acc i => Compute_cone_boundaries_2_exact.even_body i acc) s
      = { s with result := s.result ++ l.filterMap (fun i => (s.ray_store[i]?).map Neg.neg) } := by
  induction l generalizing s with
  | nil => simp
  | cons i l ih =>
    have hi : i < s.ray_store.length := h i (List.mem_cons_self _ _)
    have hs : Compute_cone_boundaries_2_exact.even_body i s = s.write (-(s.ray_store[i])) := by
      simp [Compute_cone_boundaries_2_exact.even_body, List.getElem?_eq_getElem hi]
    rw [List.foldl_cons, hs, ih]
    · simp [State.write, List.getElem?_eq_getElem hi]
    · intro j hj
      exact h j (List.mem_cons_of_mem _ hj)

theorem filterMap_range_neg [Neg FT] (L : List (Direction_2 FT)) :
    (List.range' 0 L.length).filterMap (fun i => (L[i]?).map Neg.neg) = L.map Neg.neg := by
  induction L using List.reverseRecOn with
  | nil => simp
  | append_singleton L a ih =>
    rw [List.length_append, List.length_singleton, List.range'_1_concat, List.filterMap_append]
    have h1 : (List.range' 0 L.length).filterMap (fun i => ((L ++ [a])[i]?).map Neg.neg)
        = (List.range' 0 L.length).filterMap (fun i => (L[i]?).map Neg.neg) := by
      apply List.filterMap_congr
      intro i hi
      have : i < L.length := by
        rcases List.mem_range'.1 hi with ⟨j, hj, rfl⟩
        omega
      rw [List.getElem?_append_left this]
    rw [h1, ih]
    simp

end loops

end ConeBoundaries

/-! ## What one call leaves behind -/

namespace ConeBoundaries

open CGAL

section shape

variable {FT : Type} [Field FT]

theorem approx_fail (CGAL_PI : FT) (sin cos : FT → FT) (n : ℕ) (h : n < 2)
    (d : Direction_2 FT) (s : State FT) :
    Compute_cone_boundaries_2.operator_call CGAL_PI sin cos n d s
      = { s with error := some Error.InvalidConeCount } := by
  simp [Compute_cone_boundaries_2.operator_call, h]

theorem approx_shape (CGAL_PI : FT) (sin cos : FT → FT) (n : ℕ) (h : 2 ≤ n)
    (d : Direction_2 FT) (s : State FT) :
    Compute_cone_boundaries_2.operator_call CGAL_PI sin cos n d s
      = { s with
          result := s.result ++
            d :: (List.range' 1 (n - 1)).map (approx_ray CGAL_PI sin cos n d),
          transformations := s.transformations
            ++ (List.range' 1 (n - 1)).map (approx_transformation CGAL_PI sin cos n) } := by
  have h' : ¬ n < 2 := by omega
  simp only [Compute_cone_boundaries_2.operator_call, h', if_false, for_lt]
  rw [foldl_loop_body]
  simp [State.write]

variable [DecidableEq FT]

theorem exact_fail (root_of : ℕ → List FT → FT) (sqrt : FT → FT) (n : ℕ) (h : n < 2)
    (d : Direction_2 FT) (s : State FT) :
    Compute_cone_boundaries_2_exact.operator_call root_of sqrt n d s
      = { s with error := some Error.InvalidConeCount } := by
  simp [Compute_cone_boundaries_2_exact.operator_call, h]

/-- For a cone number below `UINT_MAX` the loop of the recurrence is left, with the pair
`recurrence`. -/
theorem recurrence_run_eq (n : ℕ) (h : 1 ≤ n) (hmax : n < UINT_MAX) :
    (Compute_cone_boundaries_2_exact.recurrence_run n :
        Option (CGAL.Polynomial FT × CGAL.Polynomial FT))
      = some (Compute_cone_boundaries_2_exact.recurrence n) := by
  rw [Compute_cone_boundaries_2_exact.recurrence_run,
    unsigned_for_le_eq n _ hmax (UINT_MAX + 1) 2 _ (by omega) (by rw [UINT_MAX_eq] at *; omega)]
  rfl

/-- For the cone number `UINT_MAX`, and for numbers beyond the type, the loop of the
recurrence is never left, whatever the fuel. -/
theorem recurrence_never_left (n : ℕ) (hmax : UINT_MAX ≤ n) (fuel : ℕ) :
    unsigned_for_le n (Compute_cone_boundaries_2_exact.recurrence_body) fuel 2
        ((CGAL.Polynomial.const 1, Compute_cone_boundaries_2_exact.x) :
          CGAL.Polynomial FT × CGAL.Polynomial FT) = none :=
  unsigned_for_le_none n _ hmax fuel 2 _ (by rw [UINT_MAX_eq]; omega)

theorem exact_diverges (root_of : ℕ → List FT → FT) (sqrt : FT → FT) (n : ℕ)
    (hmax : UINT_MAX ≤ n) (d : Direction_2 FT) (s : State FT) :
    Compute_cone_boundaries_2_exact.operator_call root_of sqrt n d s
      = { s with diverged := true } := by
  have h' : ¬ n < 2 := by rw [UINT_MAX_eq] at hmax; omega
  have hrun : (Compute_cone_boundaries_2_exact.recurrence_run n :
      Option (CGAL.Polynomial FT × CGAL.Polynomial FT)) = none :=
    recurrence_never_left n hmax _
  simp only [Compute_cone_boundaries_2_exact.operator_call, h', if_false, hrun]

theorem exact_returns (root_of : ℕ → List FT → FT) (sqrt : FT → FT) (n : ℕ) (h : 2 ≤ n)
    (hmax : n < UINT_MAX) (d : Direction_2 FT) (s : State FT) :
    Compute_cone_boundaries_2_exact.operator_call root_of sqrt n d s
      = Compute_cone_boundaries_2_exact.after_recurrence root_of sqrt n d
          (Compute_cone_boundaries_2_exact.recurrence n) s := by
  have h' : ¬ n < 2 := by omega
  simp only [Compute_cone_boundaries_2_exact.operator_call, h', if_false,
    recurrence_run_eq n (by omega) hmax]

theorem exact_shape_even (root_of : ℕ → List FT → FT) (sqrt : FT → FT) (n : ℕ) (h : 2 ≤ n)
    (hmax : n < UINT_MAX) (he : n % 2 = 0) (d : Direction_2 FT) (s : State FT) :
    Compute_cone_boundaries_2_exact.operator_call root_of sqrt n d s
      = { result := s.result
            ++ (List.range' 1 (n / 2)).map
                (first_ray root_of sqrt (Compute_cone_boundaries_2_exact.polynomial n) d)
            ++ ((List.range' 1 (n / 2)).map
                (first_ray root_of sqrt (Compute_cone_boundaries_2_exact.polynomial n) d)).map
                Neg.neg,
          ray_store := (List.range' 1 (n / 2)).map
            (first_ray root_of sqrt (Compute_cone_boundaries_2_exact.polynomial n) d),
          root_of_calls := s.root_of_calls ++ List.range' 1 (n / 2),
          error := s.error,
          transformations := s.transformations ++ (List.range' 1 (n / 2)).map
            (first_transformation root_of sqrt (Compute_cone_boundaries_2_exact.polynomial n)),
          diverged := s.diverged } := by
  rw [exact_returns root_of sqrt n h hmax]
  simp only [Compute_cone_boundaries_2_exact.after_recurrence, for_lt, for_le,
    Compute_cone_boundaries_2_exact.is_even, Compute_cone_boundaries_2_exact.half, he, if_true,
    Nat.add_sub_cancel, Nat.sub_zero]
  rw [foldl_first_body, foldl_even_body]
  · simp only [if_true, List.nil_append]
    have := filterMap_range_neg ((List.range' 1 (n / 2)).map
      (first_ray root_of sqrt (Compute_cone_boundaries_2_exact.polynomial n) d))
    rw [List.length_map, List.length_range'] at this
    simp only [Compute_cone_boundaries_2_exact.polynomial] at this ⊢
    rw [this]
  · intro i hi
    rcases List.mem_range'.1 hi with ⟨j, hj, rfl⟩
    simp
    omega

theorem exact_shape_odd (root_of : ℕ → List FT → FT) (sqrt : FT → FT) (n : ℕ) (h : 2 ≤ n)
    (hmax : n < UINT_MAX) (ho : n % 2 = 1) (d : Direction_2 FT) (s : State FT) :
    Compute_cone_boundaries_2_exact.operator_call root_of sqrt n d s
      = { result := s.result
            ++ (List.range' 1 (n / 2 + 1)).map
                (first_ray root_of sqrt (Compute_cone_boundaries_2_exact.polynomial n) d)
            ++ (List.range' 0 (n / 2)).map (fun i =>
                odd_ray root_of sqrt (Compute_cone_boundaries_2_exact.polynomial n) d
                  (n / 2 + 1 - i)),
          ray_store := [],
          root_of_calls := s.root_of_calls ++ List.range' 1 (n / 2 + 1)
            ++ (List.range' 0 (n / 2)).map (fun i => n / 2 + 1 - i),
          error := s.error,
          transformations := s.transformations
            ++ (List.range' 1 (n / 2 + 1)).map
              (first_transformation root_of sqrt (Compute_cone_boundaries_2_exact.polynomial n))
            ++ (List.range' 0 (n / 2)).map (fun i =>
              odd_transformation root_of sqrt (Compute_cone_boundaries_2_exact.polynomial n)
                (n / 2 + 1 - i)),
          diverged := s.diverged } := by
  have ho' : ¬ n % 2 = 0 := by omega
  rw [exact_returns root_of sqrt n h hmax]
  simp only [Compute_cone_boundaries_2_exact.after_recurrence, for_lt, for_le,
    Compute_cone_boundaries_2_exact.is_even, Compute_cone_boundaries_2_exact.half, ho',
    Nat.add_sub_cancel, Nat.sub_zero]
  rw [foldl_first_body, foldl_odd_body]
  simp [Compute_cone_boundaries_2_exact.polynomial]

end shape

end ConeBoundaries

/-! ## Coefficient sequences and polynomials -/

namespace ConeBoundaries

section bridge

variable {FT : Type} [Field FT]

theorem to_polynomial_add_coeffs (p q : List FT) :
    to_polynomial (CGAL.Polynomial.add_coeffs p q) = to_polynomial p + to_polynomial q := by
  induction p generalizing q with
  | nil => simp [CGAL.Polynomial.add_coeffs, to_polynomial]
  | cons a p ih =>
    cases q with
    | nil => simp [CGAL.Polynomial.add_coeffs, to_polynomial]
    | cons b q =>
      simp only [CGAL.Polynomial.add_coeffs, to_polynomial, ih, Polynomial.C_add]
      ring

theorem to_polynomial_scale_coeffs (c : FT) (p : List FT) :
    to_polynomial (CGAL.Polynomial.scale_coeffs c p) = Polynomial.C c * to_polynomial p := by
  induction p with
  | nil => simp [CGAL.Polynomial.scale_coeffs, to_polynomial]
  | cons a p ih =>
    simp only [CGAL.Polynomial.scale_coeffs, List.map_cons, to_polynomial, Polynomial.C_mul] at ih ⊢
    rw [ih]
    ring

theorem to_polynomial_map_neg (p : List FT) :
    to_polynomial (p.map (fun b => -b)) = - to_polynomial p := by
  induction p with
  | nil => simp [to_polynomial]
  | cons a p ih =>
    simp only [List.map_cons, to_polynomial, ih, Polynomial.C_neg]
    ring

theorem to_polynomial_mul_coeffs (p q : List FT) :
    to_polynomial (CGAL.Polynomial.mul_coeffs p q) = to_polynomial p * to_polynomial q := by
  induction p with
  | nil => simp [CGAL.Polynomial.mul_coeffs, to_polynomial]
  | cons a p ih =>
    simp only [CGAL.Polynomial.mul_coeffs, to_polynomial_add_coeffs, to_polynomial_scale_coeffs,
      to_polynomial, ih, Polynomial.C_0]
    ring

theorem to_polynomial_replicate_append (k : ℕ) (p : List FT) :
    to_polynomial (List.replicate k 0 ++ p) = Polynomial.X ^ k * to_polynomial p := by
  induction k with
  | zero => simp
  | succ k ih =>
    have h : List.replicate (k + 1) (0 : FT) ++ p = 0 :: (List.replicate k 0 ++ p) := rfl
    rw [h, to_polynomial, ih, Polynomial.C_0]
    ring

theorem eval_coeffs_eq (p : List FT) (x : FT) :
    CGAL.Polynomial.eval_coeffs p x = (to_polynomial p).eval x := by
  induction p with
  | nil => simp [CGAL.Polynomial.eval_coeffs, to_polynomial]
  | cons a p ih =>
    simp only [CGAL.Polynomial.eval_coeffs, List.foldr_cons] at ih ⊢
    simp [to_polynomial, ih]

variable [DecidableEq FT]

theorem to_polynomial_strip_nil (p : List FT) (h : CGAL.Polynomial.strip p = []) :
    to_polynomial p = 0 := by
  induction p with
  | nil => rfl
  | cons a p ih =>
    simp only [CGAL.Polynomial.strip] at h
    split_ifs at h with hc
    simp [to_polynomial, ih hc.1, hc.2]

theorem to_polynomial_strip (p : List FT) :
    to_polynomial (CGAL.Polynomial.strip p) = to_polynomial p := by
  induction p with
  | nil => rfl
  | cons a p ih =>
    simp only [CGAL.Polynomial.strip]
    split_ifs with hc
    · simp [to_polynomial, to_polynomial_strip_nil p hc.1, hc.2]
    · simp [to_polynomial, ih]

theorem to_polynomial_reduce (p : List FT) :
    to_polynomial (CGAL.Polynomial.reduce p) = to_polynomial p := by
  unfold CGAL.Polynomial.reduce
  split_ifs with hc
  · simp [to_polynomial, to_polynomial_strip_nil p hc]
  · exact to_polynomial_strip p

end bridge

end ConeBoundaries

/-! ## The polynomial built by the recurrence -/

namespace ConeBoundaries

section chebyshev

variable {FT : Type} [Field FT]

/-- The recurrence of the Chebyshev polynomials of the first kind, with `-X` for the variable. -/
theorem chebyshev_neg_step (k : ℕ) :
    (Polynomial.Chebyshev.T FT ((k + 2 : ℕ) : ℤ)).comp (- Polynomial.X)
      = 2 * (- Polynomial.X) * (Polynomial.Chebyshev.T FT ((k + 1 : ℕ) : ℤ)).comp (- Polynomial.X)
        - (Polynomial.Chebyshev.T FT (k : ℤ)).comp (- Polynomial.X) := by
  have h : ((k + 2 : ℕ) : ℤ) = (k : ℤ) + 2 := by push_cast; ring
  have h1 : ((k + 1 : ℕ) : ℤ) = (k : ℤ) + 1 := by push_cast; ring
  rw [h, h1, Polynomial.Chebyshev.T_add_two]
  simp [Polynomial.sub_comp, Polynomial.mul_comp]

theorem chebyshev_comp_neg (n : ℕ) :
    (Polynomial.Chebyshev.T FT (n : ℤ)).comp (- Polynomial.X)
      = (-1) ^ n * Polynomial.Chebyshev.T FT (n : ℤ) := by
  induction n using Nat.twoStepInduction with
  | zero => simp
  | one => simp
  | more k ih0 ih1 =>
    rw [chebyshev_neg_step, ih0, ih1]
    have h : ((k + 2 : ℕ) : ℤ) = (k : ℤ) + 2 := by push_cast; ring
    have h1 : ((k + 1 : ℕ) : ℤ) = (k : ℤ) + 1 := by push_cast; ring
    rw [h, h1, Polynomial.Chebyshev.T_add_two]
    ring

theorem chebyshev_natDegree [CharZero FT] (n : ℕ) :
    (Polynomial.Chebyshev.T FT (n : ℤ)).natDegree = n := by
  induction n using Nat.twoStepInduction with
  | zero => simp
  | one => simp
  | more k ih0 ih1 =>
    have h : ((k + 2 : ℕ) : ℤ) = (k : ℤ) + 2 := by push_cast; ring
    have h1 : ((k + 1 : ℕ) : ℤ) = (k : ℤ) + 1 := by push_cast; ring
    rw [h1] at ih1
    rw [h, Polynomial.Chebyshev.T_add_two]
    have h2 : (2 : Polynomial FT) = Polynomial.C 2 := (map_ofNat Polynomial.C 2).symm
    have hT : Polynomial.Chebyshev.T FT ((k : ℤ) + 1) ≠ 0 := by
      intro hz
      rw [hz] at ih1
      simp at ih1
    have hd : (2 * Polynomial.X * Polynomial.Chebyshev.T FT ((k : ℤ) + 1)).natDegree = k + 2 := by
      rw [h2, mul_assoc, Polynomial.natDegree_C_mul (by norm_num), Polynomial.natDegree_X_mul hT,
        ih1]
    rw [Polynomial.natDegree_sub_eq_left_of_natDegree_lt, hd]
    rw [hd, ih0]
    omega

variable [DecidableEq FT]

theorem to_polynomial_const (c : FT) :
    to_polynomial (CGAL.Polynomial.const c).coeff = Polynomial.C c := by
  simp [CGAL.Polynomial.const, to_polynomial_reduce, to_polynomial]

theorem to_polynomial_sub (p q : CGAL.Polynomial FT) :
    to_polynomial (CGAL.Polynomial.sub p q).coeff
      = to_polynomial p.coeff - to_polynomial q.coeff := by
  simp only [CGAL.Polynomial.sub, to_polynomial_reduce, to_polynomial_add_coeffs,
    to_polynomial_map_neg]
  ring

theorem to_polynomial_mul (p q : CGAL.Polynomial FT) :
    to_polynomial (CGAL.Polynomial.mul p q).coeff
      = to_polynomial p.coeff * to_polynomial q.coeff := by
  simp only [CGAL.Polynomial.mul, to_polynomial_reduce, to_polynomial_mul_coeffs]

theorem to_polynomial_x :
    to_polynomial (CGAL.Compute_cone_boundaries_2_exact.x : CGAL.Polynomial FT).coeff = - Polynomial.X := by
  simp only [CGAL.Compute_cone_boundaries_2_exact.x, CGAL.Polynomial.shift, to_polynomial_reduce,
    to_polynomial_replicate_append, to_polynomial_const]
  simp

theorem to_polynomial_double_x :
    to_polynomial (CGAL.Compute_cone_boundaries_2_exact.double_x : CGAL.Polynomial FT).coeff
      = 2 * (- Polynomial.X) := by
  simp only [CGAL.Compute_cone_boundaries_2_exact.double_x, CGAL.Polynomial.smul,
    to_polynomial_reduce, to_polynomial_scale_coeffs, to_polynomial_x]
  rw [map_ofNat Polynomial.C 2]

theorem recurrence_loop (k : ℕ) :
    to_polynomial ((List.range' 2 k).foldl
        (fun acc i => CGAL.Compute_cone_boundaries_2_exact.recurrence_body i acc)
        (CGAL.Polynomial.const (1 : FT), CGAL.Compute_cone_boundaries_2_exact.x)).1.coeff
      = (Polynomial.Chebyshev.T FT (k : ℤ)).comp (- Polynomial.X) ∧
    to_polynomial ((List.range' 2 k).foldl
        (fun acc i => CGAL.Compute_cone_boundaries_2_exact.recurrence_body i acc)
        (CGAL.Polynomial.const (1 : FT), CGAL.Compute_cone_boundaries_2_exact.x)).2.coeff
      = (Polynomial.Chebyshev.T FT ((k + 1 : ℕ) : ℤ)).comp (- Polynomial.X) := by
  induction k with
  | zero =>
    simp [to_polynomial_const, to_polynomial_x]
  | succ k ih =>
    rw [List.range'_1_concat, List.foldl_append, List.foldl_cons, List.foldl_nil]
    generalize (List.range' 2 k).foldl
        (fun acc i => CGAL.Compute_cone_boundaries_2_exact.recurrence_body i acc)
        (CGAL.Polynomial.const (1 : FT), CGAL.Compute_cone_boundaries_2_exact.x) = ab at ih ⊢
    simp only [CGAL.Compute_cone_boundaries_2_exact.recurrence_body]
    refine ⟨ih.2, ?_⟩
    rw [to_polynomial_sub, to_polynomial_mul, to_polynomial_double_x, ih.1, ih.2,
      chebyshev_neg_step]

theorem to_polynomial_recurrence (n : ℕ) (h : 1 ≤ n) :
    to_polynomial ((CGAL.Compute_cone_boundaries_2_exact.recurrence n : CGAL.Polynomial FT × CGAL.Polynomial FT)).2.coeff
      = (Polynomial.Chebyshev.T FT (n : ℤ)).comp (- Polynomial.X) := by
  have hn : n + 1 - 2 + 1 = n := by omega
  have := (@recurrence_loop FT _ _ (n + 1 - 2)).2
  rw [hn] at this
  exact this

theorem to_polynomial_polynomial (n : ℕ) (h : 1 ≤ n) :
    to_polynomial ((CGAL.Compute_cone_boundaries_2_exact.polynomial n : CGAL.Polynomial FT)).coeff
      = (Polynomial.Chebyshev.T FT (n : ℤ)).comp (- Polynomial.X) - 1 := by
  rw [CGAL.Compute_cone_boundaries_2_exact.polynomial, to_polynomial_sub,
    to_polynomial_recurrence n h, to_polynomial_const]
  simp

end chebyshev

end ConeBoundaries

/-! ## The real roots of the polynomial -/

namespace ConeBoundaries

section roots

theorem eval_polynomial (n : ℕ) (h : 1 ≤ n) (x : ℝ) :
    CGAL.Polynomial.eval_coeffs ((CGAL.Compute_cone_boundaries_2_exact.polynomial n : CGAL.Polynomial ℝ)).coeff x
      = (Polynomial.Chebyshev.T ℝ (n : ℤ)).eval (-x) - 1 := by
  rw [eval_coeffs_eq, to_polynomial_polynomial n h]
  simp [Polynomial.eval_comp]

theorem chebyshev_increasing (y : ℝ) (hy : 1 < y) (k : ℕ) :
    1 ≤ (Polynomial.Chebyshev.T ℝ (k : ℤ)).eval y ∧
      (Polynomial.Chebyshev.T ℝ (k : ℤ)).eval y
        < (Polynomial.Chebyshev.T ℝ ((k + 1 : ℕ) : ℤ)).eval y := by
  induction k with
  | zero => simp [hy]
  | succ k ih =>
    have h : ((k + 1 + 1 : ℕ) : ℤ) = (k : ℤ) + 2 := by push_cast; ring
    have h1 : ((k + 1 : ℕ) : ℤ) = (k : ℤ) + 1 := by push_cast; ring
    rw [h, Polynomial.Chebyshev.T_add_two]
    rw [h1] at ih ⊢
    obtain ⟨ih0, ih1⟩ := ih
    simp only [Polynomial.eval_sub, Polynomial.eval_mul, Polynomial.eval_ofNat, Polynomial.eval_X]
    constructor
    · linarith
    · nlinarith

theorem chebyshev_gt_one (y : ℝ) (hy : 1 < y) (n : ℕ) (h : 1 ≤ n) :
    1 < (Polynomial.Chebyshev.T ℝ (n : ℤ)).eval y := by
  obtain ⟨k, rfl⟩ : ∃ k, n = k + 1 := ⟨n - 1, by omega⟩
  have := chebyshev_increasing y hy k
  linarith

theorem chebyshev_ne_one_of_lt (y : ℝ) (hy : y < -1) (n : ℕ) (h : 1 ≤ n) :
    (Polynomial.Chebyshev.T ℝ (n : ℤ)).eval y ≠ 1 := by
  have h1 := chebyshev_gt_one (-y) (by linarith) n h
  have h2 : (Polynomial.Chebyshev.T ℝ (n : ℤ)).eval y
      = (-1) ^ n * (Polynomial.Chebyshev.T ℝ (n : ℤ)).eval (-y) := by
    have := congrArg (Polynomial.eval (-y)) (@chebyshev_comp_neg ℝ _ n)
    simp only [Polynomial.eval_comp, Polynomial.eval_neg, Polynomial.eval_X, neg_neg,
      Polynomial.eval_mul, Polynomial.eval_pow, Polynomial.eval_one] at this
    exact this
  rw [h2]
  rcases Nat.even_or_odd n with he | ho
  · rw [he.neg_one_pow]
    linarith
  · rw [ho.neg_one_pow]
    linarith

/-- The angle of the boundary of rank `j`: `j` times the cone angle, as the header computes it. -/
theorem angle_le_pi (n j : ℕ) (h : 1 ≤ n) (hj : 2 * j ≤ n) :
    0 ≤ (j : ℝ) * (2 * Real.pi / (n : ℝ)) ∧ (j : ℝ) * (2 * Real.pi / (n : ℝ)) ≤ Real.pi := by
  have hn : (0 : ℝ) < n := by exact_mod_cast h
  have hjn : (2 : ℝ) * j ≤ n := by exact_mod_cast hj
  have hpi := Real.pi_pos
  constructor
  · positivity
  · rw [show (j : ℝ) * (2 * Real.pi / (n : ℝ)) = (2 * j) * Real.pi / n by ring, div_le_iff₀ hn]
    nlinarith

theorem chebyshev_eq_one_iff (n : ℕ) (h : 1 ≤ n) (y : ℝ) :
    (Polynomial.Chebyshev.T ℝ (n : ℤ)).eval y = 1
      ↔ ∃ j : ℕ, 2 * j ≤ n ∧ y = Real.cos ((j : ℝ) * (2 * Real.pi / (n : ℝ))) := by
  have hn : (0 : ℝ) < n := by exact_mod_cast h
  have hpi := Real.pi_pos
  constructor
  · intro hT
    have hy1 : -1 ≤ y := by
      by_contra hc
      exact chebyshev_ne_one_of_lt y (by linarith) n h hT
    have hy2 : y ≤ 1 := by
      by_contra hc
      have := chebyshev_gt_one y (by linarith) n h
      linarith
    have hcos := Real.cos_arccos hy1 hy2
    have h0 := Real.arccos_nonneg y
    have hle := Real.arccos_le_pi y
    rw [← hcos, Polynomial.Chebyshev.T_real_cos] at hT
    obtain ⟨z, hz⟩ := (Real.cos_eq_one_iff _).1 hT
    simp only [Int.cast_natCast] at hz
    have hz0 : 0 ≤ z := by
      by_contra hc
      have : z ≤ -1 := by omega
      have : (z : ℝ) ≤ -1 := by exact_mod_cast this
      nlinarith
    obtain ⟨j, rfl⟩ := Int.eq_ofNat_of_zero_le hz0
    simp only [Int.cast_natCast] at hz
    refine ⟨j, ?_, ?_⟩
    · have : (2 : ℝ) * j ≤ n := by
        by_contra hc
        push_neg at hc
        nlinarith
      exact_mod_cast this
    · rw [← hcos]
      congr 1
      field_simp
      linarith
  · rintro ⟨j, -, rfl⟩
    rw [Polynomial.Chebyshev.T_real_cos]
    have : ((n : ℤ) : ℝ) * ((j : ℝ) * (2 * Real.pi / (n : ℝ))) = (j : ℝ) * (2 * Real.pi) := by
      simp only [Int.cast_natCast]
      field_simp
    rw [this]
    exact Real.cos_nat_mul_two_pi j

theorem polynomial_root_iff (n : ℕ) (h : 1 ≤ n) (x : ℝ) :
    CGAL.Polynomial.eval_coeffs ((CGAL.Compute_cone_boundaries_2_exact.polynomial n : CGAL.Polynomial ℝ)).coeff x
      = 0 ↔ ∃ j : ℕ, 2 * j ≤ n ∧ x = - Real.cos ((j : ℝ) * (2 * Real.pi / (n : ℝ))) := by
  rw [eval_polynomial n h, sub_eq_zero, chebyshev_eq_one_iff n h]
  constructor
  · rintro ⟨j, hj, hx⟩
    exact ⟨j, hj, by linarith⟩
  · rintro ⟨j, hj, hx⟩
    exact ⟨j, hj, by linarith⟩

theorem neg_cos_lt (n i j : ℕ) (h : 1 ≤ n) (hij : i < j) (hj : 2 * j ≤ n) :
    - Real.cos ((i : ℝ) * (2 * Real.pi / (n : ℝ)))
      < - Real.cos ((j : ℝ) * (2 * Real.pi / (n : ℝ))) := by
  have hn : (0 : ℝ) < n := by exact_mod_cast h
  have hpi := Real.pi_pos
  have hi := angle_le_pi n i h (by omega)
  have hj' := angle_le_pi n j h hj
  have hlt : (i : ℝ) * (2 * Real.pi / (n : ℝ)) < (j : ℝ) * (2 * Real.pi / (n : ℝ)) := by
    have : (i : ℝ) < j := by exact_mod_cast hij
    have : 0 < 2 * Real.pi / (n : ℝ) := by positivity
    nlinarith
  have := Real.cos_lt_cos_of_nonneg_of_le_pi hi.1 hj'.2 hlt
  linarith

theorem neg_cos_lt_iff (n i j : ℕ) (h : 1 ≤ n) (hi : 2 * i ≤ n) (hj : 2 * j ≤ n) :
    - Real.cos ((i : ℝ) * (2 * Real.pi / (n : ℝ)))
      < - Real.cos ((j : ℝ) * (2 * Real.pi / (n : ℝ))) ↔ i < j := by
  constructor
  · intro hlt
    by_contra hc
    rcases Nat.lt_or_eq_of_le (Nat.le_of_not_lt hc) with hji | hji
    · have := neg_cos_lt n j i h hji hi
      linarith
    · rw [hji] at hlt
      exact lt_irrefl _ hlt
  · intro hij
    exact neg_cos_lt n i j h hij hj

theorem roots_below (n j : ℕ) (h : 1 ≤ n) (hj : 2 * j ≤ n) :
    {y : ℝ | CGAL.Polynomial.eval_coeffs
        ((CGAL.Compute_cone_boundaries_2_exact.polynomial n : CGAL.Polynomial ℝ)).coeff y = 0 ∧
        y < - Real.cos ((j : ℝ) * (2 * Real.pi / (n : ℝ)))}
      = ((Finset.range j).image
          (fun i : ℕ => - Real.cos ((i : ℝ) * (2 * Real.pi / (n : ℝ)))) : Finset ℝ) := by
  ext y
  simp only [Set.mem_setOf_eq, Finset.coe_image, Finset.coe_range, Set.mem_image, Set.mem_Iio]
  constructor
  · rintro ⟨hy, hlt⟩
    obtain ⟨i, hi, rfl⟩ := (polynomial_root_iff n h y).1 hy
    exact ⟨i, (neg_cos_lt_iff n i j h hi hj).1 hlt, rfl⟩
  · rintro ⟨i, hij, rfl⟩
    exact ⟨(polynomial_root_iff n h _).2 ⟨i, by omega, rfl⟩, neg_cos_lt n i j h hij hj⟩

theorem is_kth_smallest_root_polynomial (n j : ℕ) (h : 1 ≤ n) (hj : 2 * j ≤ n) :
    CGAL.is_kth_smallest_root ((CGAL.Compute_cone_boundaries_2_exact.polynomial n : CGAL.Polynomial ℝ)).coeff
      (j + 1) (- Real.cos ((j : ℝ) * (2 * Real.pi / (n : ℝ)))) := by
  refine ⟨(polynomial_root_iff n h _).2 ⟨j, hj, rfl⟩, ?_, ?_⟩
  · rw [roots_below n j h hj]
    exact Finset.finite_toSet _
  · rw [roots_below n j h hj, Set.ncard_coe_Finset, Finset.card_image_of_injOn, Finset.card_range]
    intro a ha b hb hab
    simp only [Finset.coe_range, Set.mem_Iio] at ha hb
    by_contra hne
    rcases Nat.lt_or_gt_of_ne hne with hlt | hlt
    · have := neg_cos_lt n a b h hlt (by omega)
      simp only at hab
      linarith
    · have := neg_cos_lt n b a h hlt (by omega)
      simp only at hab
      linarith

theorem is_kth_smallest_root_unique (coeffs : List ℝ) (k : ℕ) (r r' : ℝ)
    (h : CGAL.is_kth_smallest_root coeffs k r) (h' : CGAL.is_kth_smallest_root coeffs k r') :
    r = r' := by
  have key : ∀ a b : ℝ, CGAL.is_kth_smallest_root coeffs k a →
      CGAL.is_kth_smallest_root coeffs k b → ¬ a < b := by
    intro a b ha hb hab
    have hsub : {y : ℝ | CGAL.Polynomial.eval_coeffs coeffs y = 0 ∧ y < a}
        ⊂ {y : ℝ | CGAL.Polynomial.eval_coeffs coeffs y = 0 ∧ y < b} := by
      constructor
      · rintro y ⟨hy, hlt⟩
        exact ⟨hy, lt_trans hlt hab⟩
      · intro hsup
        have : a ∈ {y : ℝ | CGAL.Polynomial.eval_coeffs coeffs y = 0 ∧ y < a} :=
          hsup ⟨ha.1, hab⟩
        exact lt_irrefl a this.2
    have := Set.ncard_lt_ncard hsub hb.2.1
    have h1 := ha.2.2
    have h2 := hb.2.2
    omega
  rcases lt_trichotomy r r' with hlt | heq | hgt
  · exact absurd hlt (key r r' h h')
  · exact heq
  · exact absurd hgt (key r' r h' h)

theorem root_of_eq (coeffs : List ℝ) (k : ℕ) (r : ℝ)
    (h : CGAL.is_kth_smallest_root coeffs k r) : CGAL.root_of k coeffs = r := by
  have hex : ∃ r, CGAL.is_kth_smallest_root coeffs k r := ⟨r, h⟩
  unfold CGAL.root_of
  rw [dif_pos hex]
  exact is_kth_smallest_root_unique coeffs k _ _ (Classical.choose_spec hex) h

theorem root_of_polynomial (n j : ℕ) (h : 1 ≤ n) (hj : 2 * j ≤ n) :
    CGAL.root_of (j + 1) ((CGAL.Compute_cone_boundaries_2_exact.polynomial n : CGAL.Polynomial ℝ)).coeff
      = - Real.cos ((j : ℝ) * (2 * Real.pi / (n : ℝ))) :=
  root_of_eq _ _ _ (is_kth_smallest_root_polynomial n j h hj)

end roots

end ConeBoundaries

/-! ## The rays over the real numbers -/

namespace ConeBoundaries

section rays

theorem direction_ext {FT : Type} (d e : CGAL.Direction_2 FT) (hx : d.dx = e.dx)
    (hy : d.dy = e.dy) : d = e := by
  cases d
  cases e
  simp only [CGAL.Direction_2.mk.injEq]
  exact ⟨hx, hy⟩

theorem neg_dx {FT : Type} [Neg FT] (d : CGAL.Direction_2 FT) : (-d).dx = -d.dx := rfl

theorem neg_dy {FT : Type} [Neg FT] (d : CGAL.Direction_2 FT) : (-d).dy = -d.dy := rfl

theorem rotate_zero (d : CGAL.Direction_2 ℝ) : rotate 0 d = d := by
  apply direction_ext <;> simp [rotate]

theorem rotate_add_pi (θ : ℝ) (d : CGAL.Direction_2 ℝ) : rotate (θ + Real.pi) d = -(rotate θ d) := by
  apply direction_ext
  · simp only [rotate, neg_dx, Real.cos_add_pi, Real.sin_add_pi]
    ring
  · simp only [rotate, neg_dy, Real.cos_add_pi, Real.sin_add_pi]
    ring

theorem rotate_two_pi_sub (θ : ℝ) (d : CGAL.Direction_2 ℝ) :
    rotate (2 * Real.pi - θ) d = rotate (-θ) d := by
  simp only [rotate, Real.cos_two_pi_sub, Real.sin_two_pi_sub, Real.cos_neg, Real.sin_neg]

theorem rotate_add_two_pi (θ : ℝ) (d : CGAL.Direction_2 ℝ) :
    rotate (θ + 2 * Real.pi) d = rotate θ d := by
  simp only [rotate, Real.cos_add_two_pi, Real.sin_add_two_pi]

theorem rotate_rotate (θ φ : ℝ) (d : CGAL.Direction_2 ℝ) :
    rotate θ (rotate φ d) = rotate (φ + θ) d := by
  apply direction_ext
  · simp only [rotate, Real.cos_add, Real.sin_add]
    ring
  · simp only [rotate, Real.cos_add, Real.sin_add]
    ring

theorem sqrt_one_sub_cos_sq (θ : ℝ) (h0 : 0 ≤ θ) (hpi : θ ≤ Real.pi) :
    Real.sqrt (1 - Real.cos θ * Real.cos θ) = Real.sin θ := by
  have hs := Real.sin_nonneg_of_nonneg_of_le_pi h0 hpi
  have : 1 - Real.cos θ * Real.cos θ = Real.sin θ ^ 2 := by
    have := Real.sin_sq_add_cos_sq θ
    nlinarith
  rw [this, Real.sqrt_sq hs]

theorem first_ray_real (n j : ℕ) (h : 1 ≤ n) (hj : 2 * j ≤ n) (d : CGAL.Direction_2 ℝ) :
    first_ray CGAL.root_of Real.sqrt (CGAL.Compute_cone_boundaries_2_exact.polynomial n) d (j + 1)
      = rotate ((j : ℝ) * (2 * Real.pi / (n : ℝ))) d := by
  have ha := angle_le_pi n j h hj
  simp only [first_ray, root_of_polynomial n j h hj, neg_neg,
    sqrt_one_sub_cos_sq _ ha.1 ha.2, CGAL.Aff_transformation_2.transform, rotate]
  apply direction_ext
  · simp only
    ring
  · rfl

theorem odd_ray_real (n j : ℕ) (h : 1 ≤ n) (hj : 2 * j ≤ n) (d : CGAL.Direction_2 ℝ) :
    odd_ray CGAL.root_of Real.sqrt (CGAL.Compute_cone_boundaries_2_exact.polynomial n) d (j + 1)
      = rotate (-((j : ℝ) * (2 * Real.pi / (n : ℝ)))) d := by
  have ha := angle_le_pi n j h hj
  simp only [odd_ray, root_of_polynomial n j h hj, neg_neg,
    sqrt_one_sub_cos_sq _ ha.1 ha.2, CGAL.Aff_transformation_2.transform, rotate,
    Real.cos_neg, Real.sin_neg]
  apply direction_ext
  · simp only
    ring
  · rfl

theorem approx_ray_real (n i : ℕ) (d : CGAL.Direction_2 ℝ) :
    approx_ray Real.pi Real.sin Real.cos n d i
      = rotate ((i : ℝ) * (2 * Real.pi / (n : ℝ))) d := by
  simp only [approx_ray, CGAL.Aff_transformation_2.transform, rotate]
  apply direction_ext
  · simp only
    ring
  · rfl

theorem approximate_result (n : ℕ) (h : 2 ≤ n) (d : CGAL.Direction_2 ℝ) :
    (approximate n d).result = cone_set n d := by
  obtain ⟨k, rfl⟩ : ∃ k, n = k + 1 := ⟨n - 1, by omega⟩
  rw [approximate, approx_shape _ _ _ _ h, cone_set, List.range_succ_eq_map]
  simp only [CGAL.State.init, List.nil_append, List.map_cons, List.map_map, Nat.add_sub_cancel,
    Nat.cast_zero, zero_mul, rotate_zero, List.range'_eq_map_range]
  congr 1
  apply List.map_congr_left
  intro i _
  simp only [Function.comp, approx_ray_real]
  rw [Nat.succ_eq_add_one, add_comm 1 i]

theorem exact_result_even (n : ℕ) (h : 2 ≤ n) (hmax : n < CGAL.UINT_MAX) (he : n % 2 = 0)
    (d : CGAL.Direction_2 ℝ) :
    (exact n d).result = cone_set n d := by
  obtain ⟨m, rfl⟩ : ∃ m, n = m + m := ⟨n / 2, by omega⟩
  have hm : (m + m) / 2 = m := by omega
  have hpi : (m : ℝ) * (2 * Real.pi / ((m + m : ℕ) : ℝ)) = Real.pi := by
    have : (m : ℝ) ≠ 0 := by
      have : 1 ≤ m := by omega
      positivity
    push_cast
    field_simp
    ring
  rw [exact, exact_shape_even _ _ _ h hmax he, cone_set, List.range_add]
  simp only [CGAL.State.init, List.nil_append, hm, List.map_append, List.map_map,
    List.range'_eq_map_range]
  congr 1
  · apply List.map_congr_left
    intro j hj
    have hj' : j < m := List.mem_range.1 hj
    simp only [Function.comp]
    rw [add_comm 1 j, first_ray_real _ _ (by omega) (by omega)]
  · apply List.map_congr_left
    intro j hj
    have hj' : j < m := List.mem_range.1 hj
    simp only [Function.comp]
    rw [add_comm 1 j, first_ray_real _ _ (by omega) (by omega), ← rotate_add_pi]
    congr 1
    have hs : ((m + j : ℕ) : ℝ) * (2 * Real.pi / ((m + m : ℕ) : ℝ))
        = (j : ℝ) * (2 * Real.pi / ((m + m : ℕ) : ℝ))
          + (m : ℝ) * (2 * Real.pi / ((m + m : ℕ) : ℝ)) := by
      push_cast
      ring
    rw [hs, hpi]

theorem exact_result_odd (n : ℕ) (h : 2 ≤ n) (hmax : n < CGAL.UINT_MAX) (ho : n % 2 = 1)
    (d : CGAL.Direction_2 ℝ) :
    (exact n d).result = cone_set n d := by
  obtain ⟨m, rfl⟩ : ∃ m, n = (m + 1) + m := ⟨n / 2, by omega⟩
  have hm : (m + 1 + m) / 2 = m := by omega
  have hn : ((m + 1 + m : ℕ) : ℝ) ≠ 0 := by positivity
  rw [exact, exact_shape_odd _ _ _ h hmax ho, cone_set, List.range_add]
  simp only [CGAL.State.init, List.nil_append, hm, List.map_append, List.map_map,
    List.range'_eq_map_range]
  congr 1
  · apply List.map_congr_left
    intro j hj
    have hj' : j < m + 1 := List.mem_range.1 hj
    simp only [Function.comp]
    rw [add_comm 1 j, first_ray_real _ _ (by omega) (by omega)]
  · apply List.map_congr_left
    intro j hj
    have hj' : j < m := List.mem_range.1 hj
    simp only [Function.comp, Nat.zero_add]
    have hk : m + 1 - j = (m - j) + 1 := by omega
    rw [hk, odd_ray_real _ _ (by omega) (by omega), ← rotate_two_pi_sub]
    congr 1
    have hc : ((m - j : ℕ) : ℝ) = (m : ℝ) - (j : ℝ) := by
      rw [Nat.cast_sub (le_of_lt hj')]
    rw [hc]
    push_cast
    field_simp
    ring

theorem exact_result (n : ℕ) (h : 2 ≤ n) (hmax : n < CGAL.UINT_MAX) (d : CGAL.Direction_2 ℝ) :
    (exact n d).result = cone_set n d := by
  rcases Nat.mod_two_eq_zero_or_one n with he | ho
  · exact exact_result_even n h hmax he d
  · exact exact_result_odd n h hmax ho d

theorem cone_set_get (n k : ℕ) (hk : k < n) (d : CGAL.Direction_2 ℝ) :
    (cone_set n d)[k]? = some (rotate ((k : ℝ) * (2 * Real.pi / (n : ℝ))) d) := by
  simp [cone_set, List.getElem?_range hk]

end rays

end ConeBoundaries

/-! ## Properties of the two strategies -/

namespace ConeBoundaries

/-- C1 on the code: for every cone number `n ≥ 2` the approximate strategy writes exactly `n`
directions after what the output held (the initial direction and then `n - 1` rays) and
returns the old position plus `n`.  The exact strategy does so for every `n` with
`2 ≤ n < UINT_MAX`: `m` rays in its first loop and then `m` (even `n`, `m = n / 2`) or `m - 1`
(odd `n`, `m = n / 2 + 1`) in its second.  For `n = UINT_MAX` the loop of the recurrence is
never left, whatever the fuel, and the exact strategy writes nothing. -/
theorem C1_writes_exactly_n {FT : Type} [Field FT] [DecidableEq FT] (CGAL_PI : FT)
    (sin cos : FT → FT) (root_of : ℕ → List FT → FT) (sqrt : FT → FT) (n : ℕ) (h : 2 ≤ n)
    (d : CGAL.Direction_2 FT) (s : CGAL.State FT) :
    (∃ rays : List (CGAL.Direction_2 FT),
        (CGAL.Compute_cone_boundaries_2.operator_call CGAL_PI sin cos n d s).result
          = s.result ++ d :: rays ∧ rays.length = n - 1) ∧
      (CGAL.Compute_cone_boundaries_2.operator_call CGAL_PI sin cos n d s).position
        = s.position + n ∧
      (n < CGAL.UINT_MAX →
        (∃ first second : List (CGAL.Direction_2 FT),
          (CGAL.for_le 1 (CGAL.Compute_cone_boundaries_2_exact.half n)
              (CGAL.Compute_cone_boundaries_2_exact.first_body root_of sqrt
                (CGAL.Compute_cone_boundaries_2_exact.polynomial n) d
                (CGAL.Compute_cone_boundaries_2_exact.is_even n))
              { s with ray_store := [] }).result = s.result ++ first ∧
          (CGAL.Compute_cone_boundaries_2_exact.operator_call root_of sqrt n d s).result
            = s.result ++ first ++ second ∧
          first.length = (if n % 2 = 0 then n / 2 else n / 2 + 1) ∧
          second.length = (if n % 2 = 0 then n / 2 else n / 2 + 1 - 1)) ∧
        (CGAL.Compute_cone_boundaries_2_exact.operator_call root_of sqrt n d s).position
          = s.position + n ∧
        (CGAL.Compute_cone_boundaries_2_exact.operator_call root_of sqrt n d s).diverged
          = s.diverged) ∧
      (∀ fuel : ℕ, CGAL.unsigned_for_le CGAL.UINT_MAX
        CGAL.Compute_cone_boundaries_2_exact.recurrence_body fuel 2
        ((CGAL.Polynomial.const 1, CGAL.Compute_cone_boundaries_2_exact.x) :
          CGAL.Polynomial FT × CGAL.Polynomial FT) = none) ∧
      (CGAL.Compute_cone_boundaries_2_exact.operator_call root_of sqrt CGAL.UINT_MAX d s).diverged
        = true ∧
      (CGAL.Compute_cone_boundaries_2_exact.operator_call root_of sqrt CGAL.UINT_MAX d s).result
        = s.result ∧
      (CGAL.Compute_cone_boundaries_2_exact.operator_call root_of sqrt CGAL.UINT_MAX d s).position
        = s.position := by
  refine ⟨?_, ?_, ?_, ?_, ?_, ?_, ?_⟩
  · exact ⟨_, by rw [approx_shape _ _ _ _ h], by simp⟩
  · rw [approx_shape _ _ _ _ h]
    simp only [CGAL.State.position, List.length_append, List.length_cons, List.length_map,
      List.length_range']
    omega
  · intro hmax
    refine ⟨?_, ?_, ?_⟩
    · rcases Nat.mod_two_eq_zero_or_one n with he | ho
      · refine ⟨_, _, ?_, by rw [exact_shape_even _ _ _ h hmax he], ?_, ?_⟩
        · simp only [CGAL.for_le, foldl_first_body,
            CGAL.Compute_cone_boundaries_2_exact.half, he, if_true, Nat.add_sub_cancel]
        · simp [he]
        · simp [he]
      · have ho' : ¬ n % 2 = 0 := by omega
        refine ⟨_, _, ?_, by rw [exact_shape_odd _ _ _ h hmax ho], ?_, ?_⟩
        · simp only [CGAL.for_le, foldl_first_body,
            CGAL.Compute_cone_boundaries_2_exact.half, ho', if_false, Nat.add_sub_cancel]
        · simp [ho']
        · simp [ho']
    · rcases Nat.mod_two_eq_zero_or_one n with he | ho
      · rw [exact_shape_even _ _ _ h hmax he]
        simp only [CGAL.State.position, List.length_append, List.length_map,
          List.length_range']
        omega
      · rw [exact_shape_odd _ _ _ h hmax ho]
        simp only [CGAL.State.position, List.length_append, List.length_map,
          List.length_range']
        omega
    · rcases Nat.mod_two_eq_zero_or_one n with he | ho
      · rw [exact_shape_even _ _ _ h hmax he]
      · rw [exact_shape_odd _ _ _ h hmax ho]
  · exact fun fuel => recurrence_never_left CGAL.UINT_MAX (le_refl _) fuel
  · rw [exact_diverges _ _ _ (le_refl _)]
  · rw [exact_diverges _ _ _ (le_refl _)]
  · rw [exact_diverges _ _ _ (le_refl _)]
    rfl

/-- The statement of C1 on the cone number 3 over the rational numbers, after one direction
already written, and the exact strategy on the cone number `UINT_MAX`. -/
theorem C1_writes_exactly_n_witness :
    2 ≤ 3 ∧
      (CGAL.Compute_cone_boundaries_2.operator_call (3 : ℚ) (fun t => t) (fun t => t) 3 ⟨1, 0⟩
          (CGAL.State.init [⟨0, 1⟩])).position = (CGAL.State.init [(⟨0, 1⟩ :
            CGAL.Direction_2 ℚ)]).position + 3 ∧
      (CGAL.Compute_cone_boundaries_2_exact.operator_call scripted_root_of (fun t => t) 3 ⟨1, 0⟩
          (CGAL.State.init [⟨0, 1⟩])).position = (CGAL.State.init [(⟨0, 1⟩ :
            CGAL.Direction_2 ℚ)]).position + 3 ∧
      (CGAL.Compute_cone_boundaries_2_exact.operator_call scripted_root_of (fun t => t)
          CGAL.UINT_MAX ⟨1, 0⟩ (CGAL.State.init [⟨0, 1⟩])).result = [⟨0, 1⟩] :=
  ⟨by decide,
    (C1_writes_exactly_n (3 : ℚ) (fun t => t) (fun t => t) scripted_root_of (fun t => t) 3
      (by decide) ⟨1, 0⟩ (CGAL.State.init [⟨0, 1⟩])).2.1,
    ((C1_writes_exactly_n (3 : ℚ) (fun t => t) (fun t => t) scripted_root_of (fun t => t) 3
      (by decide) ⟨1, 0⟩ (CGAL.State.init [⟨0, 1⟩])).2.2.1 (by decide)).2.1,
    (C1_writes_exactly_n (3 : ℚ) (fun t => t) (fun t => t) scripted_root_of (fun t => t) 3
      (by decide) ⟨1, 0⟩ (CGAL.State.init [⟨0, 1⟩])).2.2.2.2.2.1⟩

/-- C4: a call fails with `InvalidConeCount` if and only if the cone number is below 2, in the
same way for both strategies; on failure nothing has been written and the oracle has not been
called; for a cone number of at least 2 neither strategy raises an error. -/
theorem C4_invalid_cone_count {FT : Type} [Field FT] [DecidableEq FT] (CGAL_PI : FT)
    (sin cos : FT → FT) (root_of : ℕ → List FT → FT) (sqrt : FT → FT) (n : ℕ)
    (d : CGAL.Direction_2 FT) (already : List (CGAL.Direction_2 FT)) :
    ((CGAL.Compute_cone_boundaries_2.operator_call CGAL_PI sin cos n d
        (CGAL.State.init already)).error = some CGAL.Error.InvalidConeCount ↔ n < 2) ∧
      ((CGAL.Compute_cone_boundaries_2_exact.operator_call root_of sqrt n d
        (CGAL.State.init already)).error = some CGAL.Error.InvalidConeCount ↔ n < 2) ∧
      (n < 2 →
        (CGAL.Compute_cone_boundaries_2.operator_call CGAL_PI sin cos n d
            (CGAL.State.init already)).result = already ∧
          (CGAL.Compute_cone_boundaries_2_exact.operator_call root_of sqrt n d
            (CGAL.State.init already)).result = already ∧
          (CGAL.Compute_cone_boundaries_2_exact.operator_call root_of sqrt n d
            (CGAL.State.init already)).root_of_calls = [] ∧
          CGAL.Compute_cone_boundaries_2.operator_call CGAL_PI sin cos n d
              (CGAL.State.init already)
            = CGAL.Compute_cone_boundaries_2_exact.operator_call root_of sqrt n d
              (CGAL.State.init already)) ∧
      (2 ≤ n →
        (CGAL.Compute_cone_boundaries_2.operator_call CGAL_PI sin cos n d
            (CGAL.State.init already)).error = none ∧
          (CGAL.Compute_cone_boundaries_2_exact.operator_call root_of sqrt n d
            (CGAL.State.init already)).error = none) := by
  have hge : 2 ≤ n →
      (CGAL.Compute_cone_boundaries_2.operator_call CGAL_PI sin cos n d
          (CGAL.State.init already)).error = none ∧
        (CGAL.Compute_cone_boundaries_2_exact.operator_call root_of sqrt n d
          (CGAL.State.init already)).error = none := by
    intro h
    constructor
    · rw [approx_shape _ _ _ _ h]
      rfl
    · rcases Nat.lt_or_ge n CGAL.UINT_MAX with hmax | hmax
      · rcases Nat.mod_two_eq_zero_or_one n with he | ho
        · rw [exact_shape_even _ _ _ h hmax he]
          rfl
        · rw [exact_shape_odd _ _ _ h hmax ho]
          rfl
      · rw [exact_diverges _ _ _ hmax]
        rfl
  refine ⟨?_, ?_, ?_, hge⟩
  · constructor
    · intro he
      by_contra hc
      rw [(hge (by omega)).1] at he
      exact Option.noConfusion he
    · intro h
      rw [approx_fail _ _ _ _ h]
  · constructor
    · intro he
      by_contra hc
      rw [(hge (by omega)).2] at he
      exact Option.noConfusion he
    · intro h
      rw [exact_fail _ _ _ h]
  · intro h
    rw [approx_fail _ _ _ _ h, exact_fail _ _ _ h]
    exact ⟨rfl, rfl, rfl, rfl⟩

end ConeBoundaries

namespace ConeBoundaries

theorem half_angle (n : ℕ) (h : 2 ≤ n) (he : n % 2 = 0) :
    ((n / 2 : ℕ) : ℝ) * (2 * Real.pi / (n : ℝ)) = Real.pi := by
  obtain ⟨m, rfl⟩ : ∃ m, n = m + m := ⟨n / 2, by omega⟩
  have hm : (m + m) / 2 = m := by omega
  have : (m : ℝ) ≠ 0 := by
    have : 1 ≤ m := by omega
    positivity
  rw [hm]
  push_cast
  field_simp
  ring

theorem full_angle (n : ℕ) (h : 2 ≤ n) : (n : ℝ) * (2 * Real.pi / (n : ℝ)) = 2 * Real.pi := by
  have : (n : ℝ) ≠ 0 := by positivity
  field_simp

/-- On the cone number `UINT_MAX` the exact strategy over the real numbers writes nothing,
calls no oracle and does not return. -/
theorem exact_uint_max (d : CGAL.Direction_2 ℝ) :
    exact CGAL.UINT_MAX d = { CGAL.State.init [] with diverged := true } := by
  rw [exact, exact_diverges _ _ _ (le_refl _)]

/-- C2 on the code: over the real numbers, with `root_of` the `k`-th smallest real root and
`sqrt` the exact square root, for every `n` with `2 ≤ n < UINT_MAX`, every direction `d` and
every `k < n` the exact strategy's element `k` is `d` turned counterclockwise by `2πk/n`, and
the element after it, cyclically (the element `(k + 1) mod n`), is the element `k` turned
counterclockwise by the angle `2π/n`.  For `n = UINT_MAX` the exact strategy does not return
and its output has no element. -/
theorem C2_exact_equal_angles (n : ℕ) (h : 2 ≤ n) (hmax : n < CGAL.UINT_MAX)
    (d : CGAL.Direction_2 ℝ) (k : ℕ) (hk : k < n) :
    (exact n d).result[k]? = some
        ⟨Real.cos (2 * Real.pi * (k : ℝ) / (n : ℝ)) * d.dx
            - Real.sin (2 * Real.pi * (k : ℝ) / (n : ℝ)) * d.dy,
          Real.sin (2 * Real.pi * (k : ℝ) / (n : ℝ)) * d.dx
            + Real.cos (2 * Real.pi * (k : ℝ) / (n : ℝ)) * d.dy⟩ ∧
      (∃ r : CGAL.Direction_2 ℝ, (exact n d).result[k]? = some r ∧
        (exact n d).result[(k + 1) % n]? = some
          ⟨Real.cos (2 * Real.pi / (n : ℝ)) * r.dx - Real.sin (2 * Real.pi / (n : ℝ)) * r.dy,
            Real.sin (2 * Real.pi / (n : ℝ)) * r.dx
              + Real.cos (2 * Real.pi / (n : ℝ)) * r.dy⟩) ∧
      (exact n d).diverged = false ∧
      (exact CGAL.UINT_MAX d).diverged = true ∧
      (exact CGAL.UINT_MAX d).result = [] := by
  have hang : (k : ℝ) * (2 * Real.pi / (n : ℝ)) = 2 * Real.pi * (k : ℝ) / (n : ℝ) := by ring
  have hget := cone_set_get n k hk d
  have hdiv : (exact n d).diverged = false := by
    rcases Nat.mod_two_eq_zero_or_one n with he | ho
    · rw [exact, exact_shape_even _ _ _ h hmax he]
      rfl
    · rw [exact, exact_shape_odd _ _ _ h hmax ho]
      rfl
  refine ⟨?_, ?_, hdiv, by rw [exact_uint_max], by rw [exact_uint_max]; rfl⟩
  · rw [exact_result n h hmax d, hget, rotate, hang]
  · rw [exact_result n h hmax d]
    refine ⟨_, hget, ?_⟩
    have hrot : ∀ r : CGAL.Direction_2 ℝ,
        (⟨Real.cos (2 * Real.pi / (n : ℝ)) * r.dx - Real.sin (2 * Real.pi / (n : ℝ)) * r.dy,
          Real.sin (2 * Real.pi / (n : ℝ)) * r.dx + Real.cos (2 * Real.pi / (n : ℝ)) * r.dy⟩ :
            CGAL.Direction_2 ℝ) = rotate (2 * Real.pi / (n : ℝ)) r := fun r => rfl
    rw [hrot, rotate_rotate]
    rcases Nat.lt_or_ge (k + 1) n with hlt | hge
    · rw [Nat.mod_eq_of_lt hlt, cone_set_get n (k + 1) hlt d]
      congr 2
      push_cast
      ring
    · have hkn : k + 1 = n := by omega
      have h0 : 0 < n := by omega
      rw [hkn, Nat.mod_self, cone_set_get n 0 h0 d]
      congr 1
      have hk' : (k : ℝ) + 1 = (n : ℝ) := by exact_mod_cast hkn
      have : (k : ℝ) * (2 * Real.pi / (n : ℝ)) + 2 * Real.pi / (n : ℝ)
          = ((0 : ℕ) : ℝ) * (2 * Real.pi / (n : ℝ)) + 2 * Real.pi := by
        have h1 : (k : ℝ) * (2 * Real.pi / (n : ℝ)) + 2 * Real.pi / (n : ℝ)
            = ((k : ℝ) + 1) * (2 * Real.pi / (n : ℝ)) := by ring
        rw [h1, hk', full_angle n h]
        simp
      rw [this, rotate_add_two_pi]

/-- The statement of C2 for four cones from the direction `(1, 0)`, at the wrap-around from the
last element to the first. -/
theorem C2_exact_equal_angles_witness :
    2 ≤ 4 ∧ 4 < CGAL.UINT_MAX ∧ 3 < 4 ∧
      ∃ r : CGAL.Direction_2 ℝ, (exact 4 ⟨1, 0⟩).result[3]? = some r ∧
        (exact 4 ⟨1, 0⟩).result[(3 + 1) % 4]? = some
          ⟨Real.cos (2 * Real.pi / ((4 : ℕ) : ℝ)) * r.dx
              - Real.sin (2 * Real.pi / ((4 : ℕ) : ℝ)) * r.dy,
            Real.sin (2 * Real.pi / ((4 : ℕ) : ℝ)) * r.dx
              + Real.cos (2 * Real.pi / ((4 : ℕ) : ℝ)) * r.dy⟩ :=
  ⟨by decide, by decide, by decide,
    (C2_exact_equal_angles 4 (by decide) (by decide) ⟨1, 0⟩ 3 (by decide)).2.1⟩

/-- C3 on the code: for every `n ≥ 2` and every direction `d`, the approximate strategy writes
`d` itself as element 0, whatever the number type and the functions `sin`, `cos` are.  The
smallest real root of the polynomial is `-1`, so for rank 1 the cosine is `1`, the sine is
`sqrt 0 = 0` and the transformation is the identity; for every `n` with `2 ≤ n < UINT_MAX` the
exact strategy's first call of the oracle has rank 1 and the ray written first is `d`.  For
`n = UINT_MAX` the exact strategy calls no oracle, writes nothing and does not return. -/
theorem C3_first_is_initial_direction {FT : Type} [Field FT] (CGAL_PI : FT)
    (sin cos : FT → FT) (n : ℕ) (h : 2 ≤ n) (d : CGAL.Direction_2 FT)
    (dr : CGAL.Direction_2 ℝ) :
    (CGAL.Compute_cone_boundaries_2.operator_call CGAL_PI sin cos n d
        (CGAL.State.init [])).result[0]? = some d ∧
      CGAL.root_of 1
        (CGAL.Compute_cone_boundaries_2_exact.polynomial n : CGAL.Polynomial ℝ).coeff = -1 ∧
      Real.sqrt (1 - (- (-1 : ℝ)) * (- (-1 : ℝ))) = 0 ∧
      (CGAL.Aff_transformation_2.mk (1 : ℝ) (-0) 0 1).transform dr = dr ∧
      (n < CGAL.UINT_MAX →
        (exact n dr).root_of_calls[0]? = some 1 ∧
          (exact n dr).transformations[0]?
            = some (CGAL.Aff_transformation_2.mk (1 : ℝ) (-0) 0 1) ∧
          (exact n dr).result[0]? = some dr) ∧
      (exact CGAL.UINT_MAX dr).root_of_calls = [] ∧
      (exact CGAL.UINT_MAX dr).result[0]? = none ∧
      (exact CGAL.UINT_MAX dr).diverged = true := by
  have hroot : CGAL.root_of 1
      (CGAL.Compute_cone_boundaries_2_exact.polynomial n : CGAL.Polynomial ℝ).coeff = -1 := by
    have := root_of_polynomial n 0 (by omega) (by omega)
    simpa using this
  have hsqrt : Real.sqrt (1 - (- (-1 : ℝ)) * (- (-1 : ℝ))) = 0 := by norm_num
  refine ⟨?_, hroot, hsqrt, ?_, ?_, by rw [exact_uint_max]; rfl, by rw [exact_uint_max]; rfl,
    by rw [exact_uint_max]⟩
  · rw [approx_shape _ _ _ _ h]
    simp [CGAL.State.init]
  · apply direction_ext <;> simp [CGAL.Aff_transformation_2.transform]
  · intro hmax
    have hfirst : first_transformation CGAL.root_of Real.sqrt
        (CGAL.Compute_cone_boundaries_2_exact.polynomial n) 1
        = CGAL.Aff_transformation_2.mk (1 : ℝ) (-0) 0 1 := by
      rw [first_transformation, hroot, hsqrt]
      simp
    obtain ⟨m, hm⟩ : ∃ m, n / 2 = m + 1 := ⟨n / 2 - 1, by omega⟩
    refine ⟨?_, ?_, ?_⟩
    · rcases Nat.mod_two_eq_zero_or_one n with he | ho
      · rw [exact, exact_shape_even _ _ _ h hmax he, hm, List.range'_succ]
        simp [CGAL.State.init]
      · rw [exact, exact_shape_odd _ _ _ h hmax ho, List.range'_succ]
        simp [CGAL.State.init]
    · rcases Nat.mod_two_eq_zero_or_one n with he | ho
      · rw [exact, exact_shape_even _ _ _ h hmax he, hm, List.range'_succ]
        simp [CGAL.State.init, hfirst]
      · rw [exact, exact_shape_odd _ _ _ h hmax ho, List.range'_succ]
        simp [CGAL.State.init, hfirst]
    · rw [exact_result n h hmax dr, cone_set_get n 0 (by omega) dr]
      simp [rotate_zero]

/-- The statement of C3 for three cones. -/
theorem C3_first_is_initial_direction_witness :
    2 ≤ 3 ∧ 3 < CGAL.UINT_MAX ∧
      (CGAL.Compute_cone_boundaries_2.operator_call (3 : ℚ) (fun t => t) (fun t => t) 3 ⟨1, 0⟩
        (CGAL.State.init [])).result[0]? = some ⟨1, 0⟩ ∧
      (exact 3 ⟨1, 0⟩).result[0]? = some ⟨1, 0⟩ :=
  ⟨by decide, by decide,
    (C3_first_is_initial_direction (3 : ℚ) (fun t => t) (fun t => t) 3 (by decide) ⟨1, 0⟩
      ⟨1, 0⟩).1,
    ((C3_first_is_initial_direction (3 : ℚ) (fun t => t) (fun t => t) 3 (by decide) ⟨1, 0⟩
      ⟨1, 0⟩).2.2.2.2.1 (by decide)).2.2⟩

end ConeBoundaries

namespace ConeBoundaries

end ConeBoundaries

namespace ConeBoundaries

end ConeBoundaries

namespace ConeBoundaries

theorem cone_set_unit (n : ℕ) :
    cone_set n ⟨1, 0⟩ = (List.range n).map (fun k : ℕ =>
      (⟨Real.cos ((k : ℝ) * (2 * Real.pi / (n : ℝ))),
        Real.sin ((k : ℝ) * (2 * Real.pi / (n : ℝ)))⟩ : CGAL.Direction_2 ℝ)) := by
  unfold cone_set
  apply List.map_congr_left
  intro k _
  simp [rotate]

theorem cos_two_pi_div_three : Real.cos (2 * Real.pi / 3) = -1 / 2 := by
  have h : 2 * Real.pi / 3 = Real.pi - Real.pi / 3 := by ring
  rw [h, Real.cos_pi_sub, Real.cos_pi_div_three]
  ring

theorem sin_two_pi_div_three : Real.sin (2 * Real.pi / 3) = Real.sqrt 3 / 2 := by
  have h : 2 * Real.pi / 3 = Real.pi - Real.pi / 3 := by ring
  rw [h, Real.sin_pi_sub, Real.sin_pi_div_three]

theorem cos_four_pi_div_three : Real.cos (2 * (2 * Real.pi / 3)) = -1 / 2 := by
  have h : 2 * (2 * Real.pi / 3) = Real.pi / 3 + Real.pi := by ring
  rw [h, Real.cos_add_pi, Real.cos_pi_div_three]
  ring

theorem sin_four_pi_div_three : Real.sin (2 * (2 * Real.pi / 3)) = -(Real.sqrt 3 / 2) := by
  have h : 2 * (2 * Real.pi / 3) = Real.pi / 3 + Real.pi := by ring
  rw [h, Real.sin_add_pi, Real.sin_pi_div_three]

theorem exact_three :
    (exact 3 ⟨1, 0⟩).result
      = [⟨1, 0⟩, ⟨-1 / 2, Real.sqrt 3 / 2⟩, ⟨-1 / 2, -(Real.sqrt 3 / 2)⟩] := by
  rw [exact_result 3 (by decide) (by decide), cone_set_unit]
  simp [List.range_succ, cos_two_pi_div_three, sin_two_pi_div_three, cos_four_pi_div_three,
    sin_four_pi_div_three]

/-- C6: over the real numbers, the exact strategy from the direction `(1, 0)` returns
`[(1,0), (-1,0)]` for two cones, `[(1,0), (-1/2, √3/2), (-1/2, -√3/2)]` for three and
`[(1,0), (0,1), (-1,0), (0,-1)]` for four. -/
theorem C6_concrete_cases :
    (exact 2 ⟨1, 0⟩).result = [⟨1, 0⟩, ⟨-1, 0⟩] ∧
      (exact 3 ⟨1, 0⟩).result
        = [⟨1, 0⟩, ⟨-1 / 2, Real.sqrt 3 / 2⟩, ⟨-1 / 2, -(Real.sqrt 3 / 2)⟩] ∧
      (exact 4 ⟨1, 0⟩).result = [⟨1, 0⟩, ⟨0, 1⟩, ⟨-1, 0⟩, ⟨0, -1⟩] := by
  refine ⟨?_, exact_three, ?_⟩
  · rw [exact_result 2 (by decide) (by decide), cone_set_unit]
    simp [List.range_succ]
  · rw [exact_result 4 (by decide) (by decide), cone_set_unit]
    have h1 : (2 : ℝ) * Real.pi / 4 = Real.pi / 2 := by ring
    have h2 : (2 : ℝ) * (Real.pi / 2) = Real.pi := by ring
    have h3 : (3 : ℝ) * (Real.pi / 2) = Real.pi / 2 + Real.pi := by ring
    simp [List.range_succ, h1, h2, h3, Real.cos_add_pi, Real.sin_add_pi]

theorem polynomial_root_iff_int (n : ℕ) (h : 1 ≤ n) (x : ℝ) :
    CGAL.Polynomial.eval_coeffs ((CGAL.Compute_cone_boundaries_2_exact.polynomial n : CGAL.Polynomial ℝ)).coeff x
      = 0 ↔ ∃ j : ℤ, x = - Real.cos (2 * Real.pi * (j : ℝ) / (n : ℝ)) := by
  have hn : (n : ℝ) ≠ 0 := by positivity
  constructor
  · intro hx
    obtain ⟨j, -, rfl⟩ := (polynomial_root_iff n h x).1 hx
    refine ⟨(j : ℤ), ?_⟩
    congr 2
    push_cast
    ring
  · rintro ⟨j, rfl⟩
    rw [eval_polynomial n h, neg_neg, Polynomial.Chebyshev.T_real_cos]
    have : ((n : ℤ) : ℝ) * (2 * Real.pi * (j : ℝ) / (n : ℝ)) = (j : ℝ) * (2 * Real.pi) := by
      simp only [Int.cast_natCast]
      field_simp
      ring
    rw [this, Real.cos_int_mul_two_pi, sub_self]

theorem neg_cos_shift (n : ℕ) (h : 2 ≤ n) (he : n % 2 = 0) (j : ℤ) :
    - Real.cos (2 * Real.pi * (j : ℝ) / (n : ℝ))
      = Real.cos (2 * Real.pi * ((j + ((n / 2 : ℕ) : ℤ) : ℤ) : ℝ) / (n : ℝ)) := by
  have hh := half_angle n h he
  have : 2 * Real.pi * ((j + ((n / 2 : ℕ) : ℤ) : ℤ) : ℝ) / (n : ℝ)
      = 2 * Real.pi * (j : ℝ) / (n : ℝ) + ((n / 2 : ℕ) : ℝ) * (2 * Real.pi / (n : ℝ)) := by
    rw [Int.cast_add, Int.cast_natCast]
    ring
  rw [this, hh, Real.cos_add_pi]

/-- C8, the claim as stated fails for three cones: `1 = cos (2π·0/3)` lies in `[-1, 1]` and is
a cosine value, but it is not a root of the polynomial handed to `root_of`. -/
theorem C8_counterexample :
    (-1 : ℝ) ≤ 1 ∧ (1 : ℝ) ≤ 1 ∧
      (∃ j : ℤ, (1 : ℝ) = Real.cos (2 * Real.pi * (j : ℝ) / ((3 : ℕ) : ℝ))) ∧
      CGAL.Polynomial.eval_coeffs
        ((CGAL.Compute_cone_boundaries_2_exact.polynomial 3 : CGAL.Polynomial ℝ)).coeff 1 ≠ 0 := by
  refine ⟨by norm_num, le_refl _, ⟨0, by simp⟩, ?_⟩
  intro hroot
  obtain ⟨j, hj, hx⟩ := (polynomial_root_iff 3 (by decide) 1).1 hroot
  have hj' : j = 0 ∨ j = 1 := by omega
  rcases hj' with rfl | rfl
  · simp at hx
    linarith
  · have hc : Real.cos (((1 : ℕ) : ℝ) * (2 * Real.pi / ((3 : ℕ) : ℝ))) = -1 / 2 := by
      have : ((1 : ℕ) : ℝ) * (2 * Real.pi / ((3 : ℕ) : ℝ)) = 2 * Real.pi / 3 := by
        push_cast
        ring
      rw [this, cos_two_pi_div_three]
    rw [hc] at hx
    linarith

/-- C8 as amended: for every `n ≥ 2`, a real `x` is a root of the polynomial handed to
`root_of` if and only if `x = -cos (2πj/n)` for some integer `j`; all these roots lie in
`[-1, 1]`, and for even `n` they are the cosine values `cos (2πj/n)` themselves. -/
theorem C8_roots_are_negated_cosines (n : ℕ) (h : 2 ≤ n) (x : ℝ) :
    (CGAL.Polynomial.eval_coeffs
        ((CGAL.Compute_cone_boundaries_2_exact.polynomial n : CGAL.Polynomial ℝ)).coeff x = 0
      ↔ ∃ j : ℤ, x = - Real.cos (2 * Real.pi * (j : ℝ) / (n : ℝ))) ∧
    (CGAL.Polynomial.eval_coeffs
        ((CGAL.Compute_cone_boundaries_2_exact.polynomial n : CGAL.Polynomial ℝ)).coeff x = 0
      → -1 ≤ x ∧ x ≤ 1) ∧
    (n % 2 = 0 →
      (CGAL.Polynomial.eval_coeffs
          ((CGAL.Compute_cone_boundaries_2_exact.polynomial n : CGAL.Polynomial ℝ)).coeff x = 0
        ↔ ∃ j : ℤ, x = Real.cos (2 * Real.pi * (j : ℝ) / (n : ℝ)))) := by
  have hiff := polynomial_root_iff_int n (by omega) x
  refine ⟨hiff, ?_, ?_⟩
  · intro hx
    obtain ⟨j, rfl⟩ := hiff.1 hx
    have h1 := Real.neg_one_le_cos (2 * Real.pi * (j : ℝ) / (n : ℝ))
    have h2 := Real.cos_le_one (2 * Real.pi * (j : ℝ) / (n : ℝ))
    constructor <;> linarith
  · intro he
    rw [hiff]
    constructor
    · rintro ⟨j, rfl⟩
      exact ⟨j + ((n / 2 : ℕ) : ℤ), neg_cos_shift n h he j⟩
    · rintro ⟨j, rfl⟩
      refine ⟨j - ((n / 2 : ℕ) : ℤ), ?_⟩
      rw [neg_cos_shift n h he]
      congr 3
      rw [sub_add_cancel]

/-- The statement of C8 as amended for three cones at `x = -1`. -/
theorem C8_roots_are_negated_cosines_witness :
    2 ≤ 3 ∧
      (CGAL.Polynomial.eval_coeffs
          ((CGAL.Compute_cone_boundaries_2_exact.polynomial 3 : CGAL.Polynomial ℝ)).coeff (-1) = 0
        ↔ ∃ j : ℤ, (-1 : ℝ) = - Real.cos (2 * Real.pi * (j : ℝ) / ((3 : ℕ) : ℝ))) :=
  ⟨by decide, (C8_roots_are_negated_cosines 3 (by decide) (-1)).1⟩

/-- C9, the claim as stated fails for three cones from the direction `(1, 0)`: there `m = 2`,
the only index is `i = 1`, the direction at the output index `m - 1 + i = 2` is
`(-1/2, -√3/2)`, while the pair built from the root of rank `m - i = 1` turns `(1, 0)` into
`(1, 0)`, which is not the same direction. -/
theorem C9_counterexample :
    (exact 3 ⟨1, 0⟩).result[2 - 1 + 1]? = some ⟨-1 / 2, -(Real.sqrt 3 / 2)⟩ ∧
      rotate_by
          (- CGAL.root_of (2 - 1) ((CGAL.Compute_cone_boundaries_2_exact.polynomial 3 : CGAL.Polynomial ℝ)).coeff)
          (- Real.sqrt (1 -
            (- CGAL.root_of (2 - 1)
                ((CGAL.Compute_cone_boundaries_2_exact.polynomial 3 : CGAL.Polynomial ℝ)).coeff) *
            (- CGAL.root_of (2 - 1)
                ((CGAL.Compute_cone_boundaries_2_exact.polynomial 3 : CGAL.Polynomial ℝ)).coeff)))
          (⟨1, 0⟩ : CGAL.Direction_2 ℝ) = ⟨1, 0⟩ ∧
      ¬ CGAL.Direction_2.same_direction (⟨1, 0⟩ : CGAL.Direction_2 ℝ)
          ⟨-1 / 2, -(Real.sqrt 3 / 2)⟩ := by
  refine ⟨?_, ?_, ?_⟩
  · rw [exact_three]
    rfl
  · have hroot : CGAL.root_of (2 - 1)
        ((CGAL.Compute_cone_boundaries_2_exact.polynomial 3 : CGAL.Polynomial ℝ)).coeff = -1 := by
      have := root_of_polynomial 3 0 (by decide) (by decide)
      simpa using this
    rw [hroot]
    apply direction_ext <;> simp [rotate_by, CGAL.Aff_transformation_2.transform]
  · rintro ⟨t, ht, hx, -⟩
    simp only [mul_one] at hx
    linarith

/-- C9 as amended: for every odd `n` with `3 ≤ n < UINT_MAX` and `m = n / 2 + 1`, whatever the
oracle and the square root return, for `i = 1, ..., m - 1` the direction at the output index `m - 1 + i` is
`d` turned by the pair `(cos_i, sin_i)` with `cos_i` the negated root of rank `m - i + 1` and
`sin_i = -sqrt (1 - cos_i²)`; the ranks asked for in the second loop are `m, m - 1, ..., 2`. -/
theorem C9_odd_second_half {FT : Type} [Field FT] [DecidableEq FT]
    (root_of : ℕ → List FT → FT) (sqrt : FT → FT) (n : ℕ) (h : 3 ≤ n)
    (hmax : n < CGAL.UINT_MAX) (ho : n % 2 = 1)
    (d : CGAL.Direction_2 FT) (i : ℕ) (hi1 : 1 ≤ i) (hi2 : i ≤ n / 2 + 1 - 1) :
    CGAL.Compute_cone_boundaries_2_exact.half n = n / 2 + 1 ∧
      (CGAL.Compute_cone_boundaries_2_exact.operator_call root_of sqrt n d
          (CGAL.State.init [])).result[n / 2 + 1 - 1 + i]? = some
        (rotate_by
          (- root_of (n / 2 + 1 - i + 1) (CGAL.Compute_cone_boundaries_2_exact.polynomial n).coeff)
          (- sqrt (1 -
            (- root_of (n / 2 + 1 - i + 1)
                (CGAL.Compute_cone_boundaries_2_exact.polynomial n).coeff) *
            (- root_of (n / 2 + 1 - i + 1)
                (CGAL.Compute_cone_boundaries_2_exact.polynomial n).coeff)))
          d) ∧
      (CGAL.Compute_cone_boundaries_2_exact.operator_call root_of sqrt n d
          (CGAL.State.init [])).root_of_calls[n / 2 + 1 - 1 + i]? = some (n / 2 + 1 - i + 1) := by
  have ho' : ¬ n % 2 = 0 := by omega
  obtain ⟨j, rfl⟩ : ∃ j, i = j + 1 := ⟨i - 1, by omega⟩
  have hj : j < n / 2 := by omega
  have hidx : n / 2 + 1 - 1 + (j + 1) = n / 2 + 1 + j := by omega
  have hrank : n / 2 + 1 - (j + 1) + 1 = n / 2 + 1 - j := by omega
  refine ⟨by simp [CGAL.Compute_cone_boundaries_2_exact.half, ho'], ?_, ?_⟩
  · rw [exact_shape_odd _ _ _ (by omega) hmax ho, hidx, hrank]
    simp only [CGAL.State.init, List.nil_append]
    rw [List.getElem?_append_right (by simp), List.getElem?_map]
    simp only [List.length_map, List.length_range', Nat.add_sub_cancel_left]
    rw [List.getElem?_eq_getElem (by simpa using hj)]
    simp [odd_ray, rotate_by]
  · rw [exact_shape_odd _ _ _ (by omega) hmax ho, hidx, hrank]
    simp only [CGAL.State.init, List.nil_append]
    rw [List.getElem?_append_right (by simp), List.getElem?_map]
    simp only [List.length_range', Nat.add_sub_cancel_left]
    rw [List.getElem?_eq_getElem (by simpa using hj)]
    simp

/-- The statement of C9 as amended for five cones, `i = 1`, on a scripted oracle over the
rational numbers: the first direction of the second half comes from the root of rank 3. -/
theorem C9_odd_second_half_witness :
    3 ≤ 5 ∧ 5 < CGAL.UINT_MAX ∧ 5 % 2 = 1 ∧ 1 ≤ 1 ∧ 1 ≤ 5 / 2 + 1 - 1 ∧
      (CGAL.Compute_cone_boundaries_2_exact.operator_call scripted_root_of (fun t => t) 5
          ⟨1, 0⟩ (CGAL.State.init [])).root_of_calls[5 / 2 + 1 - 1 + 1]?
        = some (5 / 2 + 1 - 1 + 1) :=
  ⟨by decide, by decide, by decide, by decide, by decide,
    (C9_odd_second_half scripted_root_of (fun t => t) 5 (by decide) (by decide) (by decide)
      ⟨1, 0⟩ 1 (by decide) (by decide)).2.2⟩

end ConeBoundaries

/-! ## Rays, oracle calls and the square-root guard -/

namespace ConeBoundaries

theorem foldl_const_body {σ : Type} (f : σ → σ) (l : List ℕ) (s : σ) :
    l.foldl (fun acc _ => f acc) s = f^[l.length] s := by
  induction l generalizing s with
  | nil => rfl
  | cons i l ih =>
    rw [List.foldl_cons, ih, List.length_cons, Function.iterate_succ_apply]

theorem exact_calls {FT : Type} [Field FT] [DecidableEq FT] (root_of : ℕ → List FT → FT)
    (sqrt : FT → FT) (n : ℕ) (h : 2 ≤ n) (hmax : n < CGAL.UINT_MAX) (d : CGAL.Direction_2 FT)
    (s : CGAL.State FT) :
    (CGAL.Compute_cone_boundaries_2_exact.operator_call root_of sqrt n d s).root_of_calls
      = s.root_of_calls ++ List.range' 1 (CGAL.Compute_cone_boundaries_2_exact.half n)
        ++ (if n % 2 = 0 then []
          else (List.range' 0 (CGAL.Compute_cone_boundaries_2_exact.half n - 1)).map
            (fun i => CGAL.Compute_cone_boundaries_2_exact.half n - i)) := by
  rcases Nat.mod_two_eq_zero_or_one n with he | ho
  · rw [exact_shape_even _ _ _ h hmax he]
    simp [CGAL.Compute_cone_boundaries_2_exact.half, he]
  · have ho' : ¬ n % 2 = 0 := by omega
    rw [exact_shape_odd _ _ _ h hmax ho]
    simp [CGAL.Compute_cone_boundaries_2_exact.half, ho']

/-- Every rank in the log of a call lies between `1` and `n / 2 + 1`, for every `n ≥ 2`: when
the loop of the recurrence is not left, the log is empty. -/
theorem exact_calls_bound {FT : Type} [Field FT] [DecidableEq FT] (root_of : ℕ → List FT → FT)
    (sqrt : FT → FT) (n : ℕ) (h : 2 ≤ n) (d : CGAL.Direction_2 FT)
    (already : List (CGAL.Direction_2 FT)) (k : ℕ)
    (hk : k ∈ (CGAL.Compute_cone_boundaries_2_exact.operator_call root_of sqrt n d
      (CGAL.State.init already)).root_of_calls) : 1 ≤ k ∧ k ≤ n / 2 + 1 := by
  rcases Nat.lt_or_ge n CGAL.UINT_MAX with hmax | hmax
  · rw [exact_calls _ _ _ h hmax] at hk
    simp only [CGAL.State.init, List.nil_append, List.mem_append, List.mem_range'_1] at hk
    rcases Nat.mod_two_eq_zero_or_one n with he | ho
    · simp only [CGAL.Compute_cone_boundaries_2_exact.half, he, if_true, List.not_mem_nil,
        or_false] at hk
      omega
    · have ho' : ¬ n % 2 = 0 := by omega
      simp only [CGAL.Compute_cone_boundaries_2_exact.half, ho', if_false, List.mem_map,
        List.mem_range'_1] at hk
      rcases hk with hk | ⟨i, hi, rfl⟩
      · omega
      · omega
  · rw [exact_diverges _ _ _ hmax] at hk
    simp [CGAL.State.init] at hk

/-- The transformations in the log of a call are those of the ranks `1, ..., n / 2 + 1`, for
every `n ≥ 2`. -/
theorem exact_transformations_mem {FT : Type} [Field FT] [DecidableEq FT]
    (root_of : ℕ → List FT → FT) (sqrt : FT → FT) (n : ℕ) (h : 2 ≤ n)
    (d : CGAL.Direction_2 FT) (already : List (CGAL.Direction_2 FT))
    (t : CGAL.Aff_transformation_2 FT)
    (ht : t ∈ (CGAL.Compute_cone_boundaries_2_exact.operator_call root_of sqrt n d
      (CGAL.State.init already)).transformations) :
    ∃ k : ℕ, 1 ≤ k ∧ k ≤ n / 2 + 1 ∧
      (t = first_transformation root_of sqrt
          (CGAL.Compute_cone_boundaries_2_exact.polynomial n) k ∨
        t = odd_transformation root_of sqrt
          (CGAL.Compute_cone_boundaries_2_exact.polynomial n) k) := by
  rcases Nat.lt_or_ge n CGAL.UINT_MAX with hmax | hmax
  · rcases Nat.mod_two_eq_zero_or_one n with he | ho
    · rw [exact_shape_even _ _ _ h hmax he] at ht
      simp only [CGAL.State.init, List.nil_append, List.mem_map, List.mem_range'_1] at ht
      obtain ⟨k, hk, rfl⟩ := ht
      exact ⟨k, by omega, by omega, Or.inl rfl⟩
    · rw [exact_shape_odd _ _ _ h hmax ho] at ht
      simp only [CGAL.State.init, List.nil_append, List.mem_append, List.mem_map,
        List.mem_range'_1] at ht
      rcases ht with ⟨k, hk, rfl⟩ | ⟨i, hi, rfl⟩
      · exact ⟨k, by omega, by omega, Or.inl rfl⟩
      · exact ⟨n / 2 + 1 - i, by omega, by omega, Or.inr rfl⟩
  · rw [exact_diverges _ _ _ hmax] at ht
    simp [CGAL.State.init] at ht

/-- The directions written by a call begin with the images of `d` under the transformations
of its log, in the order of the log, for every `n ≥ 2`. -/
theorem exact_result_transformations {FT : Type} [Field FT] [DecidableEq FT]
    (root_of : ℕ → List FT → FT) (sqrt : FT → FT) (n : ℕ) (h : 2 ≤ n)
    (d : CGAL.Direction_2 FT) (already : List (CGAL.Direction_2 FT)) :
    ∃ rest : List (CGAL.Direction_2 FT),
      (CGAL.Compute_cone_boundaries_2_exact.operator_call root_of sqrt n d
          (CGAL.State.init already)).result
        = already
          ++ (CGAL.Compute_cone_boundaries_2_exact.operator_call root_of sqrt n d
              (CGAL.State.init already)).transformations.map (fun t => t.transform d)
          ++ rest := by
  rcases Nat.lt_or_ge n CGAL.UINT_MAX with hmax | hmax
  · rcases Nat.mod_two_eq_zero_or_one n with he | ho
    · rw [exact_shape_even _ _ _ h hmax he]
      refine ⟨((List.range' 1 (n / 2)).map
        (first_ray root_of sqrt (CGAL.Compute_cone_boundaries_2_exact.polynomial n) d)).map
          Neg.neg, ?_⟩
      simp only [CGAL.State.init, List.nil_append, List.map_map]
      rfl
    · rw [exact_shape_odd _ _ _ h hmax ho]
      refine ⟨[], ?_⟩
      simp only [CGAL.State.init, List.nil_append, List.map_append, List.map_map,
        List.append_nil, List.append_assoc]
      rfl
  · rw [exact_diverges _ _ _ hmax]
    exact ⟨[], by simp [CGAL.State.init]⟩

/-- C11: for every `n ≥ 2`, every direction `d` and every index `i` with `1 ≤ i ≤ n - 1`, the
element `i` written by the approximate strategy is `d` turned by the pair
`(cos (i·(2π/n)), sin (i·(2π/n)))`, that is `(c·dx - s·dy, s·dx + c·dy)`: the pair comes from
`i` and the cone angle alone and is applied to `d` itself, whatever `cos`, `sin` and the
constant for π are; over the real numbers this is `d` turned counterclockwise. -/
theorem C11_approximate_rays {FT : Type} [Field FT] (CGAL_PI : FT) (sin cos : FT → FT)
    (n : ℕ) (h : 2 ≤ n) (d : CGAL.Direction_2 FT) (already : List (CGAL.Direction_2 FT))
    (dr : CGAL.Direction_2 ℝ) (i : ℕ) (hi1 : 1 ≤ i) (hi2 : i ≤ n - 1) :
    (CGAL.Compute_cone_boundaries_2.operator_call CGAL_PI sin cos n d
        (CGAL.State.init already)).result[already.length + i]? = some
      ⟨cos ((i : FT) * (2 * CGAL_PI / (n : FT))) * d.dx
          - sin ((i : FT) * (2 * CGAL_PI / (n : FT))) * d.dy,
        sin ((i : FT) * (2 * CGAL_PI / (n : FT))) * d.dx
          + cos ((i : FT) * (2 * CGAL_PI / (n : FT))) * d.dy⟩ ∧
      (CGAL.Compute_cone_boundaries_2.operator_call CGAL_PI sin cos n d
        (CGAL.State.init already)).result[already.length + i]? = some
      (rotate_by (cos ((i : FT) * (2 * CGAL_PI / (n : FT))))
        (sin ((i : FT) * (2 * CGAL_PI / (n : FT)))) d) ∧
      (approximate n dr).result[i]? = some
        ⟨Real.cos ((i : ℝ) * (2 * Real.pi / (n : ℝ))) * dr.dx
            - Real.sin ((i : ℝ) * (2 * Real.pi / (n : ℝ))) * dr.dy,
          Real.sin ((i : ℝ) * (2 * Real.pi / (n : ℝ))) * dr.dx
            + Real.cos ((i : ℝ) * (2 * Real.pi / (n : ℝ))) * dr.dy⟩ := by
  obtain ⟨j, rfl⟩ : ∃ j, i = j + 1 := ⟨i - 1, by omega⟩
  have hj : j < n - 1 := by omega
  have hget : (CGAL.Compute_cone_boundaries_2.operator_call CGAL_PI sin cos n d
      (CGAL.State.init already)).result[already.length + (j + 1)]?
      = some (approx_ray CGAL_PI sin cos n d (j + 1)) := by
    rw [approx_shape _ _ _ _ h]
    simp only [CGAL.State.init]
    rw [List.getElem?_append_right (by omega), Nat.add_sub_cancel_left, List.getElem?_cons_succ,
      List.getElem?_map, List.getElem?_eq_getElem (by simpa using hj)]
    simp [add_comm]
  refine ⟨?_, ?_, ?_⟩
  · rw [hget]
    congr 1
    apply direction_ext
    · simp only [approx_ray, CGAL.Aff_transformation_2.transform]
      ring
    · rfl
  · rw [hget]
    rfl
  · rw [approximate_result n h dr, cone_set_get n (j + 1) (by omega) dr]
    rfl

/-- The statement of C11 for four cones over the rational numbers, with the identity in place of
the sine and the cosine, at the index 2 after one direction already written. -/
theorem C11_approximate_rays_witness :
    2 ≤ 4 ∧ 1 ≤ 2 ∧ 2 ≤ 4 - 1 ∧
      (CGAL.Compute_cone_boundaries_2.operator_call (3 : ℚ) (fun t => t) (fun t => t) 4 ⟨1, 0⟩
        (CGAL.State.init [⟨0, 1⟩])).result[[(⟨0, 1⟩ : CGAL.Direction_2 ℚ)].length + 2]? = some
      (rotate_by ((fun t : ℚ => t) (((2 : ℕ) : ℚ) * (2 * 3 / ((4 : ℕ) : ℚ))))
        ((fun t : ℚ => t) (((2 : ℕ) : ℚ) * (2 * 3 / ((4 : ℕ) : ℚ)))) ⟨1, 0⟩) :=
  ⟨by decide, by decide, by decide,
    (C11_approximate_rays (3 : ℚ) (fun t => t) (fun t => t) 4 (by decide) ⟨1, 0⟩ [⟨0, 1⟩]
      ⟨1, 0⟩ 2 (by decide) (by decide)).2.1⟩

/-- C12, the claim as stated fails for four cones: one call of the exact strategy asks the
oracle twice, for the ranks 1 and 2, not four times. -/
theorem C12_counterexample :
    (exact 4 ⟨1, 0⟩).root_of_calls = [1, 2] ∧ (exact 4 ⟨1, 0⟩).root_of_calls.length ≠ 4 := by
  have hc : (exact 4 ⟨1, 0⟩).root_of_calls = [1, 2] := by
    rw [exact, exact_calls _ _ _ (by decide) (by decide)]
    simp [CGAL.State.init, CGAL.Compute_cone_boundaries_2_exact.half, List.range'_succ]
  refine ⟨hc, ?_⟩
  rw [hc]
  decide

/-- C12 as amended: for every `n` with `2 ≤ n < UINT_MAX`, whatever the oracle returns, one
call of the exact strategy calls `root_of` exactly `n` times when `n` is odd and exactly `n / 2`
times when `n` is even (the second half of an even cone set is negated from `ray_store` without
the oracle), and the loop of the polynomial recurrence, run on its counter of 32 bits, is left
after exactly `n - 1` runs of its body. -/
theorem C12_oracle_calls {FT : Type} [Field FT] [DecidableEq FT]
    (root_of : ℕ → List FT → FT) (sqrt : FT → FT) (n : ℕ) (h : 2 ≤ n)
    (hmax : n < CGAL.UINT_MAX) (d : CGAL.Direction_2 FT) (s : CGAL.State FT) :
    (CGAL.Compute_cone_boundaries_2_exact.operator_call root_of sqrt n d s).root_of_calls.length
        = s.root_of_calls.length + (if n % 2 = 0 then n / 2 else n) ∧
      CGAL.unsigned_for_le n (fun _ (steps : ℕ) => steps + 1) (CGAL.UINT_MAX + 1) 2 0
        = some (n - 1) ∧
      (CGAL.Compute_cone_boundaries_2_exact.recurrence_run n :
          Option (CGAL.Polynomial FT × CGAL.Polynomial FT))
        = some ((CGAL.Compute_cone_boundaries_2_exact.recurrence_body 0)^[n - 1]
          (CGAL.Polynomial.const 1, CGAL.Compute_cone_boundaries_2_exact.x)) := by
  refine ⟨?_, ?_, ?_⟩
  · rw [exact_calls _ _ _ h hmax]
    rcases Nat.mod_two_eq_zero_or_one n with he | ho
    · simp [CGAL.Compute_cone_boundaries_2_exact.half, he]
    · have ho' : ¬ n % 2 = 0 := by omega
      simp only [CGAL.Compute_cone_boundaries_2_exact.half, ho', if_false, List.length_append,
        List.length_range', List.length_map]
      omega
  · rw [unsigned_for_le_eq n _ hmax (CGAL.UINT_MAX + 1) 2 0 (by omega) (by omega),
      foldl_const_body (fun steps : ℕ => steps + 1)]
    simp only [List.length_range']
    have : ∀ k : ℕ, (fun steps : ℕ => steps + 1)^[k] 0 = k := by
      intro k
      induction k with
      | zero => rfl
      | succ k ih => rw [Function.iterate_succ_apply', ih]
    rw [this]
    exact congrArg some (by omega)
  · have hb : (fun (acc : CGAL.Polynomial FT × CGAL.Polynomial FT) (i : ℕ) =>
        CGAL.Compute_cone_boundaries_2_exact.recurrence_body i acc)
        = fun acc _ => CGAL.Compute_cone_boundaries_2_exact.recurrence_body 0 acc := rfl
    rw [recurrence_run_eq n (by omega) hmax, CGAL.Compute_cone_boundaries_2_exact.recurrence,
      CGAL.for_le, hb, foldl_const_body]
    simp only [List.length_range']
    have hn : n + 1 - 2 = n - 1 := by omega
    rw [hn]

/-- The statement of C12 as amended for five and for six cones on a scripted oracle over the
rational numbers. -/
theorem C12_oracle_calls_witness :
    2 ≤ 5 ∧ 2 ≤ 6 ∧ 5 < CGAL.UINT_MAX ∧ 6 < CGAL.UINT_MAX ∧
      (CGAL.Compute_cone_boundaries_2_exact.operator_call scripted_root_of (fun t => t) 5
          ⟨1, 0⟩ (CGAL.State.init [])).root_of_calls.length
        = (CGAL.State.init ([] : List (CGAL.Direction_2 ℚ))).root_of_calls.length
          + (if 5 % 2 = 0 then 5 / 2 else 5) ∧
      (CGAL.Compute_cone_boundaries_2_exact.operator_call scripted_root_of (fun t => t) 6
          ⟨1, 0⟩ (CGAL.State.init [])).root_of_calls.length
        = (CGAL.State.init ([] : List (CGAL.Direction_2 ℚ))).root_of_calls.length
          + (if 6 % 2 = 0 then 6 / 2 else 6) :=
  ⟨by decide, by decide, by decide, by decide,
    (C12_oracle_calls scripted_root_of (fun t => t) 5 (by decide) (by decide) ⟨1, 0⟩
      (CGAL.State.init [])).1,
    (C12_oracle_calls scripted_root_of (fun t => t) 6 (by decide) (by decide) ⟨1, 0⟩
      (CGAL.State.init [])).1⟩

end ConeBoundaries

namespace ConeBoundaries

theorem root_set (n : ℕ) (h : 1 ≤ n) :
    {x : ℝ | CGAL.Polynomial.eval_coeffs
        (CGAL.Compute_cone_boundaries_2_exact.polynomial n : CGAL.Polynomial ℝ).coeff x = 0}
      = ((Finset.range (n / 2 + 1)).image
          (fun j : ℕ => - Real.cos ((j : ℝ) * (2 * Real.pi / (n : ℝ)))) : Finset ℝ) := by
  ext x
  simp only [Set.mem_setOf_eq, Finset.coe_image, Finset.coe_range, Set.mem_image, Set.mem_Iio]
  rw [polynomial_root_iff n h x]
  constructor
  · rintro ⟨j, hj, rfl⟩
    exact ⟨j, by omega, rfl⟩
  · rintro ⟨j, hj, rfl⟩
    exact ⟨j, by omega, rfl⟩

theorem neg_cos_injOn (n : ℕ) (h : 1 ≤ n) :
    Set.InjOn (fun j : ℕ => - Real.cos ((j : ℝ) * (2 * Real.pi / (n : ℝ))))
      (Finset.range (n / 2 + 1) : Set ℕ) := by
  intro a ha b hb hab
  simp only [Finset.coe_range, Set.mem_Iio] at ha hb
  by_contra hne
  rcases Nat.lt_or_gt_of_ne hne with hlt | hlt
  · have := neg_cos_lt n a b h hlt (by omega)
    simp only at hab
    linarith
  · have := neg_cos_lt n b a h hlt (by omega)
    simp only at hab
    linarith

theorem exact_cos_value_eq (n j : ℕ) (h : 1 ≤ n) (hj : 2 * j ≤ n) :
    exact_cos_value n (j + 1) = Real.cos ((j : ℝ) * (2 * Real.pi / (n : ℝ))) := by
  rw [exact_cos_value, root_of_polynomial n j h hj, neg_neg]

theorem squared_length_rotate (θ : ℝ) (d : CGAL.Direction_2 ℝ) :
    squared_length (rotate θ d) = squared_length d := by
  simp only [squared_length, rotate]
  have := Real.sin_sq_add_cos_sq θ
  nlinarith [this]

/-- Over the real numbers a transformation of the log of the exact strategy is a rotation. -/
theorem exact_transformation_rotation (n k : ℕ) (h : 1 ≤ n) (hk1 : 1 ≤ k) (hk2 : k ≤ n / 2 + 1)
    (t : CGAL.Aff_transformation_2 ℝ)
    (ht : t = first_transformation CGAL.root_of Real.sqrt
          (CGAL.Compute_cone_boundaries_2_exact.polynomial n) k ∨
        t = odd_transformation CGAL.root_of Real.sqrt
          (CGAL.Compute_cone_boundaries_2_exact.polynomial n) k) :
    determinant t = 1 ∧ t.m11 = t.m00 ∧ t.m01 = - t.m10 ∧ t.m00 * t.m00 + t.m10 * t.m10 = 1 := by
  obtain ⟨j, rfl⟩ : ∃ j, k = j + 1 := ⟨k - 1, by omega⟩
  have hj : 2 * j ≤ n := by omega
  have ha := angle_le_pi n j h hj
  have hsq := Real.sin_sq_add_cos_sq ((j : ℝ) * (2 * Real.pi / (n : ℝ)))
  rcases ht with rfl | rfl
  · simp only [first_transformation, root_of_polynomial n j h hj, neg_neg,
      sqrt_one_sub_cos_sq _ ha.1 ha.2, determinant]
    refine ⟨by nlinarith, trivial, trivial, by nlinarith⟩
  · simp only [odd_transformation, root_of_polynomial n j h hj, neg_neg,
      sqrt_one_sub_cos_sq _ ha.1 ha.2, determinant]
    refine ⟨by nlinarith, trivial, trivial, by nlinarith⟩

/-- The first entries of the transformations of the log are the values `cos_value` of the
ranks of the log, in the same order. -/
theorem exact_transformations_cos (n : ℕ) (h : 2 ≤ n) (d : CGAL.Direction_2 ℝ) :
    (exact n d).transformations.map (fun t => t.m00)
      = (exact n d).root_of_calls.map (exact_cos_value n) := by
  rcases Nat.lt_or_ge n CGAL.UINT_MAX with hmax | hmax
  · rcases Nat.mod_two_eq_zero_or_one n with he | ho
    · rw [exact, exact_shape_even _ _ _ h hmax he]
      simp only [CGAL.State.init, List.nil_append, List.map_map]
      rfl
    · rw [exact, exact_shape_odd _ _ _ h hmax ho]
      simp only [CGAL.State.init, List.nil_append, List.map_append, List.map_map]
      rfl
  · rw [exact, exact_diverges _ _ _ hmax]
    rfl

/-- C13: for every `n ≥ 2` the polynomial handed to `root_of` has exactly `n / 2 + 1` distinct
real roots; every rank the exact strategy passes to the oracle lies between `1` and
`n / 2 + 1`, so that the root asked for exists; and `ray_store` is never read at an index that
is not below its size.  For `n < UINT_MAX` the call returns and the ranks are `1, ..., m` in the
first loop and `m, m - 1, ..., 2` in the second loop of an odd `n`; for the one cone number
`UINT_MAX` of an `unsigned int` the loop of the recurrence is not left and no rank is passed. -/
theorem C13_oracle_precondition {FT : Type} [Field FT] [DecidableEq FT]
    (root_of : ℕ → List FT → FT) (sqrt : FT → FT) (n : ℕ) (h : 2 ≤ n)
    (d : CGAL.Direction_2 FT) (already : List (CGAL.Direction_2 FT)) :
    {x : ℝ | CGAL.Polynomial.eval_coeffs
        (CGAL.Compute_cone_boundaries_2_exact.polynomial n : CGAL.Polynomial ℝ).coeff x
          = 0}.Finite ∧
      {x : ℝ | CGAL.Polynomial.eval_coeffs
        (CGAL.Compute_cone_boundaries_2_exact.polynomial n : CGAL.Polynomial ℝ).coeff x
          = 0}.ncard = n / 2 + 1 ∧
      (∀ k ∈ (CGAL.Compute_cone_boundaries_2_exact.operator_call root_of sqrt n d
          (CGAL.State.init already)).root_of_calls,
        1 ≤ k ∧ k ≤ n / 2 + 1 ∧
          ∃ r : ℝ, CGAL.is_kth_smallest_root
            (CGAL.Compute_cone_boundaries_2_exact.polynomial n : CGAL.Polynomial ℝ).coeff k r) ∧
      (CGAL.Compute_cone_boundaries_2_exact.operator_call root_of sqrt n d
          (CGAL.State.init already)).error ≠ some CGAL.Error.OutOfRange ∧
      (n < CGAL.UINT_MAX →
        (CGAL.Compute_cone_boundaries_2_exact.operator_call root_of sqrt n d
            (CGAL.State.init already)).root_of_calls
          = List.range' 1 (CGAL.Compute_cone_boundaries_2_exact.half n)
            ++ (if n % 2 = 0 then []
              else (List.range' 0 (CGAL.Compute_cone_boundaries_2_exact.half n - 1)).map
                (fun i => CGAL.Compute_cone_boundaries_2_exact.half n - i)) ∧
        (CGAL.Compute_cone_boundaries_2_exact.operator_call root_of sqrt n d
            (CGAL.State.init already)).error = none ∧
        (CGAL.Compute_cone_boundaries_2_exact.operator_call root_of sqrt n d
            (CGAL.State.init already)).diverged = false) ∧
      (n = CGAL.UINT_MAX →
        (CGAL.Compute_cone_boundaries_2_exact.operator_call root_of sqrt n d
            (CGAL.State.init already)).root_of_calls = [] ∧
        (CGAL.Compute_cone_boundaries_2_exact.operator_call root_of sqrt n d
            (CGAL.State.init already)).diverged = true) := by
  have h1 : 1 ≤ n := by omega
  refine ⟨?_, ?_, ?_, ?_, ?_, ?_⟩
  · rw [root_set n h1]
    exact Finset.finite_toSet _
  · rw [root_set n h1, Set.ncard_coe_Finset, Finset.card_image_of_injOn (neg_cos_injOn n h1),
      Finset.card_range]
  · intro k hk
    obtain ⟨hk1, hk2⟩ := exact_calls_bound root_of sqrt n h d already k hk
    obtain ⟨j, rfl⟩ : ∃ j, k = j + 1 := ⟨k - 1, by omega⟩
    exact ⟨hk1, hk2, _, is_kth_smallest_root_polynomial n j h1 (by omega)⟩
  · rcases Nat.lt_or_ge n CGAL.UINT_MAX with hmax | hmax
    · rcases Nat.mod_two_eq_zero_or_one n with he | ho
      · rw [exact_shape_even _ _ _ h hmax he]
        simp [CGAL.State.init]
      · rw [exact_shape_odd _ _ _ h hmax ho]
        simp [CGAL.State.init]
    · rw [exact_diverges _ _ _ hmax]
      simp [CGAL.State.init]
  · intro hmax
    refine ⟨?_, ?_, ?_⟩
    · rw [exact_calls _ _ _ h hmax]
      simp [CGAL.State.init]
    · rcases Nat.mod_two_eq_zero_or_one n with he | ho
      · rw [exact_shape_even _ _ _ h hmax he]
        rfl
      · rw [exact_shape_odd _ _ _ h hmax ho]
        rfl
    · rcases Nat.mod_two_eq_zero_or_one n with he | ho
      · rw [exact_shape_even _ _ _ h hmax he]
        rfl
      · rw [exact_shape_odd _ _ _ h hmax ho]
        rfl
  · intro hmax
    rw [exact_diverges _ _ _ (Nat.le_of_eq hmax.symm)]
    exact ⟨rfl, rfl⟩

/-- The statement of C13 for five cones on a scripted oracle over the rational numbers: the
polynomial has three real roots and the ranks asked for are `1, 2, 3, 3, 2`. -/
theorem C13_oracle_precondition_witness :
    2 ≤ 5 ∧
      {x : ℝ | CGAL.Polynomial.eval_coeffs
        (CGAL.Compute_cone_boundaries_2_exact.polynomial 5 : CGAL.Polynomial ℝ).coeff x
          = 0}.ncard = 5 / 2 + 1 ∧
      (CGAL.Compute_cone_boundaries_2_exact.operator_call scripted_root_of (fun t => t) 5
          ⟨1, 0⟩ (CGAL.State.init [])).root_of_calls = [1, 2, 3, 3, 2] :=
  ⟨by decide,
    (C13_oracle_precondition scripted_root_of (fun t => t) 5 (by decide) ⟨1, 0⟩ []).2.1,
    by
      rw [((C13_oracle_precondition scripted_root_of (fun t => t) 5 (by decide) ⟨1, 0⟩
        []).2.2.2.2.1 (by decide)).1]
      decide⟩

/-- C14: for every `n ≥ 2` every real root of the polynomial handed to `root_of` lies in
`[-1, 1]`; for every rank the exact strategy asks for, the value `cos_value` makes
`1 - cos_value²` non-negative and, with `sin_value = ± sqrt (1 - cos_value²)`,
`cos_value² + sin_value² = 1`; every transformation the strategy builds and applies (the log
`transformations`, whose first entries are the values `cos_value` of the ranks asked for) has
determinant `1` and the form of a rotation, the directions written begin with the images of
`d` under these transformations; and every vector of the output has the squared length of
`d`. -/
theorem C14_sqrt_guard (n : ℕ) (h : 2 ≤ n) (d : CGAL.Direction_2 ℝ) :
    (∀ x : ℝ, CGAL.Polynomial.eval_coeffs
        (CGAL.Compute_cone_boundaries_2_exact.polynomial n : CGAL.Polynomial ℝ).coeff x = 0
      → -1 ≤ x ∧ x ≤ 1) ∧
      (∀ k ∈ (exact n d).root_of_calls,
        0 ≤ 1 - exact_cos_value n k * exact_cos_value n k ∧
          exact_cos_value n k * exact_cos_value n k
            + Real.sqrt (1 - exact_cos_value n k * exact_cos_value n k)
              * Real.sqrt (1 - exact_cos_value n k * exact_cos_value n k) = 1) ∧
      (exact n d).transformations.map (fun t => t.m00)
        = (exact n d).root_of_calls.map (exact_cos_value n) ∧
      (∀ t ∈ (exact n d).transformations,
        determinant t = 1 ∧ t.m11 = t.m00 ∧ t.m01 = - t.m10 ∧
          t.m00 * t.m00 + t.m10 * t.m10 = 1) ∧
      (∃ rest : List (CGAL.Direction_2 ℝ),
        (exact n d).result
          = (exact n d).transformations.map (fun t => t.transform d) ++ rest) ∧
      (∀ r ∈ (exact n d).result, squared_length r = squared_length d) := by
  have h1 : 1 ≤ n := by omega
  refine ⟨?_, ?_, exact_transformations_cos n h d, ?_, ?_, ?_⟩
  · intro x hx
    obtain ⟨j, -, rfl⟩ := (polynomial_root_iff n h1 x).1 hx
    have hlo := Real.neg_one_le_cos ((j : ℝ) * (2 * Real.pi / (n : ℝ)))
    have hhi := Real.cos_le_one ((j : ℝ) * (2 * Real.pi / (n : ℝ)))
    constructor <;> linarith
  · intro k hk
    obtain ⟨hk1, hk2⟩ := exact_calls_bound CGAL.root_of Real.sqrt n h d [] k hk
    obtain ⟨j, rfl⟩ : ∃ j, k = j + 1 := ⟨k - 1, by omega⟩
    rw [exact_cos_value_eq n j h1 (by omega)]
    have hsq := Real.sin_sq_add_cos_sq ((j : ℝ) * (2 * Real.pi / (n : ℝ)))
    have hnn : 0 ≤ 1 - Real.cos ((j : ℝ) * (2 * Real.pi / (n : ℝ)))
        * Real.cos ((j : ℝ) * (2 * Real.pi / (n : ℝ))) := by
      nlinarith [sq_nonneg (Real.sin ((j : ℝ) * (2 * Real.pi / (n : ℝ))))]
    have hmul := Real.mul_self_sqrt hnn
    exact ⟨hnn, by linarith⟩
  · intro t ht
    obtain ⟨k, hk1, hk2, hkt⟩ := exact_transformations_mem CGAL.root_of Real.sqrt n h d [] t ht
    exact exact_transformation_rotation n k h1 hk1 hk2 t hkt
  · obtain ⟨rest, hrest⟩ := exact_result_transformations CGAL.root_of Real.sqrt n h d []
    exact ⟨rest, by simpa using hrest⟩
  · intro r hr
    rcases Nat.lt_or_ge n CGAL.UINT_MAX with hmax | hmax
    · rw [exact_result n h hmax d, cone_set, List.mem_map] at hr
      obtain ⟨k, -, rfl⟩ := hr
      exact squared_length_rotate _ d
    · rw [exact, exact_diverges _ _ _ hmax] at hr
      simp [CGAL.State.init] at hr

/-- The statement of C14 for three cones from the direction `(3, 4)`: every transformation
built has determinant `1` and every vector of the output has the squared length of `(3, 4)`. -/
theorem C14_sqrt_guard_witness :
    2 ≤ 3 ∧ (∀ t ∈ (exact 3 ⟨3, 4⟩).transformations, determinant t = 1) ∧
      ∀ r ∈ (exact 3 ⟨3, 4⟩).result, squared_length r = squared_length ⟨3, 4⟩ :=
  ⟨by decide, fun t ht => ((C14_sqrt_guard 3 (by decide) ⟨3, 4⟩).2.2.2.1 t ht).1,
    (C14_sqrt_guard 3 (by decide) ⟨3, 4⟩).2.2.2.2.2⟩

end ConeBoundaries

/-! ## Multiplicities of the roots -/

namespace ConeBoundaries

theorem real_polynomial_natDegree (n : ℕ) (h : 1 ≤ n) :
    (to_polynomial
      (CGAL.Compute_cone_boundaries_2_exact.polynomial n : CGAL.Polynomial ℝ).coeff).natDegree
      = n := by
  have hc : ((-1 : Polynomial ℝ)) ^ n = Polynomial.C ((-1 : ℝ) ^ n) := by simp
  have hne : ((-1 : ℝ)) ^ n ≠ 0 := pow_ne_zero _ (by norm_num)
  have hd : ((-1 : Polynomial ℝ) ^ n * Polynomial.Chebyshev.T ℝ (n : ℤ)).natDegree = n := by
    rw [hc, Polynomial.natDegree_C_mul hne, chebyshev_natDegree]
  rw [to_polynomial_polynomial n h, chebyshev_comp_neg,
    Polynomial.natDegree_sub_eq_left_of_natDegree_lt, hd]
  rw [hd, Polynomial.natDegree_one]
  omega

theorem real_polynomial_ne_zero (n : ℕ) (h : 1 ≤ n) :
    to_polynomial
      (CGAL.Compute_cone_boundaries_2_exact.polynomial n : CGAL.Polynomial ℝ).coeff ≠ 0 := by
  intro hz
  have := real_polynomial_natDegree n h
  rw [hz, Polynomial.natDegree_zero] at this
  omega

theorem isRoot_iff (n : ℕ) (h : 1 ≤ n) (x : ℝ) :
    (to_polynomial
      (CGAL.Compute_cone_boundaries_2_exact.polynomial n : CGAL.Polynomial ℝ).coeff).IsRoot x
      ↔ ∃ j : ℕ, 2 * j ≤ n ∧ x = - Real.cos ((j : ℝ) * (2 * Real.pi / (n : ℝ))) := by
  rw [Polynomial.IsRoot, ← eval_coeffs_eq, polynomial_root_iff n h]

theorem real_polynomial_derivative (n : ℕ) (h : 1 ≤ n) (x : ℝ) :
    (Polynomial.derivative (to_polynomial
      (CGAL.Compute_cone_boundaries_2_exact.polynomial n : CGAL.Polynomial ℝ).coeff)).eval x
      = - ((n : ℝ) * (Polynomial.Chebyshev.U ℝ ((n : ℤ) - 1)).eval (-x)) := by
  rw [to_polynomial_polynomial n h, Polynomial.derivative_sub, Polynomial.derivative_one,
    sub_zero, Polynomial.derivative_comp, Polynomial.Chebyshev.T_derivative_eq_U]
  simp [Polynomial.eval_comp]

theorem interior_angle (n j : ℕ) (hj0 : 0 < j) (hj : 2 * j < n) :
    0 < (j : ℝ) * (2 * Real.pi / (n : ℝ)) ∧ (j : ℝ) * (2 * Real.pi / (n : ℝ)) < Real.pi := by
  have hn : (0 : ℝ) < n := by
    have : 0 < n := by omega
    exact_mod_cast this
  have hj0' : (0 : ℝ) < j := by exact_mod_cast hj0
  have hjn : (2 : ℝ) * j < n := by exact_mod_cast hj
  have hpi := Real.pi_pos
  constructor
  · positivity
  · rw [show (j : ℝ) * (2 * Real.pi / (n : ℝ)) = (2 * j) * Real.pi / n by ring, div_lt_iff₀ hn]
    nlinarith

theorem interior_derivative_root (n j : ℕ) (hj0 : 0 < j) (hj : 2 * j < n) :
    (Polynomial.derivative (to_polynomial
      (CGAL.Compute_cone_boundaries_2_exact.polynomial n : CGAL.Polynomial ℝ).coeff)).eval
        (- Real.cos ((j : ℝ) * (2 * Real.pi / (n : ℝ)))) = 0 := by
  have h1 : 1 ≤ n := by omega
  have hn : (n : ℝ) ≠ 0 := by positivity
  obtain ⟨hpos, hlt⟩ := interior_angle n j hj0 hj
  have hsin := Real.sin_pos_of_pos_of_lt_pi hpos hlt
  have hU := Polynomial.Chebyshev.U_real_cos ((j : ℝ) * (2 * Real.pi / (n : ℝ))) ((n : ℤ) - 1)
  have hang : ((((n : ℤ) - 1 : ℤ) : ℝ) + 1) * ((j : ℝ) * (2 * Real.pi / (n : ℝ)))
      = ((2 * j : ℕ) : ℝ) * Real.pi := by
    push_cast
    field_simp
    ring
  rw [hang, Real.sin_nat_mul_pi] at hU
  have hz : (Polynomial.Chebyshev.U ℝ ((n : ℤ) - 1)).eval
      (Real.cos ((j : ℝ) * (2 * Real.pi / (n : ℝ)))) = 0 := by
    rcases mul_eq_zero.1 hU with h0 | h0
    · exact h0
    · exact absurd h0 (ne_of_gt hsin)
  rw [real_polynomial_derivative n h1, neg_neg, hz, mul_zero, neg_zero]

/-- The least multiplicity the root of rank `j + 1` can have: 1 at the two ends, 2 inside. -/
theorem multiplicity_lower_bound (n j : ℕ) (h : 1 ≤ n) (hj : 2 * j ≤ n) :
    (if j = 0 ∨ 2 * j = n then 1 else 2)
      ≤ (to_polynomial
        (CGAL.Compute_cone_boundaries_2_exact.polynomial n : CGAL.Polynomial ℝ).coeff).rootMultiplicity
          (- Real.cos ((j : ℝ) * (2 * Real.pi / (n : ℝ)))) := by
  have hp := real_polynomial_ne_zero n h
  have hroot := (isRoot_iff n h _).2 ⟨j, hj, rfl⟩
  split_ifs with hc
  · exact (Polynomial.rootMultiplicity_pos hp).2 hroot
  · push_neg at hc
    have hj0 : 0 < j := Nat.pos_of_ne_zero hc.1
    have hjn : 2 * j < n := lt_of_le_of_ne hj hc.2
    exact (Polynomial.one_lt_rootMultiplicity_iff_isRoot hp).2
      ⟨hroot, interior_derivative_root n j hj0 hjn⟩

theorem lower_bound_sum (n : ℕ) (h : 1 ≤ n) :
    ∑ j in Finset.range (n / 2 + 1), (if j = 0 ∨ 2 * j = n then 1 else 2) = n := by
  have hsplit : ∀ j ∈ Finset.range (n / 2 + 1),
      (if j = 0 ∨ 2 * j = n then 1 else 2) + ((if j = 0 then 1 else 0)
        + (if j = n / 2 ∧ n % 2 = 0 then 1 else 0)) = 2 := by
    intro j _
    by_cases h0 : j = 0
    · subst h0
      have : ¬ (0 = n / 2 ∧ n % 2 = 0) := by omega
      simp [this]
    · by_cases h1 : 2 * j = n
      · have : j = n / 2 ∧ n % 2 = 0 := by omega
        rw [if_pos (Or.inr h1), if_neg h0, if_pos this]
      · have : ¬ (j = n / 2 ∧ n % 2 = 0) := by omega
        simp [h0, h1, this]
  have htot := Finset.sum_congr rfl hsplit
  rw [Finset.sum_add_distrib, Finset.sum_add_distrib, Finset.sum_const, Finset.card_range,
    Finset.sum_ite_eq' (Finset.range (n / 2 + 1)) 0 (fun _ => 1)] at htot
  have h0mem : 0 ∈ Finset.range (n / 2 + 1) := Finset.mem_range.2 (by omega)
  rw [if_pos h0mem] at htot
  rcases Nat.mod_two_eq_zero_or_one n with he | ho
  · have hsum : ∑ j in Finset.range (n / 2 + 1), (if j = n / 2 ∧ n % 2 = 0 then 1 else 0)
        = 1 := by
      have : ∀ j ∈ Finset.range (n / 2 + 1),
          (if j = n / 2 ∧ n % 2 = 0 then 1 else 0) = (if j = n / 2 then 1 else 0) := by
        intro j _
        simp [he]
      rw [Finset.sum_congr rfl this, Finset.sum_ite_eq' (Finset.range (n / 2 + 1)) (n / 2)
        (fun _ => 1), if_pos (Finset.mem_range.2 (by omega))]
    rw [hsum] at htot
    simp only [smul_eq_mul] at htot
    omega
  · have hsum : ∑ j in Finset.range (n / 2 + 1), (if j = n / 2 ∧ n % 2 = 0 then 1 else 0)
        = 0 := by
      apply Finset.sum_eq_zero
      intro j _
      have : ¬ (j = n / 2 ∧ n % 2 = 0) := by omega
      simp [this]
    rw [hsum] at htot
    simp only [smul_eq_mul] at htot
    omega

theorem roots_toFinset (n : ℕ) (h : 1 ≤ n) :
    (to_polynomial
      (CGAL.Compute_cone_boundaries_2_exact.polynomial n : CGAL.Polynomial ℝ).coeff).roots.toFinset
      = (Finset.range (n / 2 + 1)).image
          (fun j : ℕ => - Real.cos ((j : ℝ) * (2 * Real.pi / (n : ℝ)))) := by
  ext x
  rw [Multiset.mem_toFinset, Polynomial.mem_roots (real_polynomial_ne_zero n h), isRoot_iff n h,
    Finset.mem_image]
  constructor
  · rintro ⟨j, hj, rfl⟩
    exact ⟨j, Finset.mem_range.2 (by omega), rfl⟩
  · rintro ⟨j, hj, rfl⟩
    exact ⟨j, by have := Finset.mem_range.1 hj; omega, rfl⟩

theorem multiplicity_sum (n : ℕ) (h : 1 ≤ n) :
    ∑ j in Finset.range (n / 2 + 1),
      (to_polynomial
        (CGAL.Compute_cone_boundaries_2_exact.polynomial n : CGAL.Polynomial ℝ).coeff).rootMultiplicity
          (- Real.cos ((j : ℝ) * (2 * Real.pi / (n : ℝ)))) = n := by
  apply le_antisymm
  · have hcard := Polynomial.card_roots' (to_polynomial
      (CGAL.Compute_cone_boundaries_2_exact.polynomial n : CGAL.Polynomial ℝ).coeff)
    rw [real_polynomial_natDegree n h, ← Multiset.toFinset_sum_count_eq, roots_toFinset n h,
      Finset.sum_image (neg_cos_injOn n h)] at hcard
    simpa [Polynomial.count_roots] using hcard
  · calc n = ∑ j in Finset.range (n / 2 + 1), (if j = 0 ∨ 2 * j = n then 1 else 2) :=
          (lower_bound_sum n h).symm
      _ ≤ _ := Finset.sum_le_sum (fun j hj =>
          multiplicity_lower_bound n j h (by have := Finset.mem_range.1 hj; omega))

theorem multiplicity_eq (n j : ℕ) (h : 1 ≤ n) (hj : 2 * j ≤ n) :
    (to_polynomial
      (CGAL.Compute_cone_boundaries_2_exact.polynomial n : CGAL.Polynomial ℝ).coeff).rootMultiplicity
        (- Real.cos ((j : ℝ) * (2 * Real.pi / (n : ℝ))))
      = (if j = 0 ∨ 2 * j = n then 1 else 2) := by
  have hle : ∀ i ∈ Finset.range (n / 2 + 1), (if i = 0 ∨ 2 * i = n then 1 else 2)
      ≤ (to_polynomial
        (CGAL.Compute_cone_boundaries_2_exact.polynomial n : CGAL.Polynomial ℝ).coeff).rootMultiplicity
          (- Real.cos ((i : ℝ) * (2 * Real.pi / (n : ℝ)))) :=
    fun i hi => multiplicity_lower_bound n i h (by have := Finset.mem_range.1 hi; omega)
  have hsum := (Finset.sum_eq_sum_iff_of_le hle).1
    ((lower_bound_sum n h).trans (multiplicity_sum n h).symm)
  exact (hsum j (Finset.mem_range.2 (by omega))).symm

theorem roots_eq_sum (n : ℕ) (h : 1 ≤ n) :
    (to_polynomial
      (CGAL.Compute_cone_boundaries_2_exact.polynomial n : CGAL.Polynomial ℝ).coeff).roots
      = ∑ j in Finset.range (n / 2 + 1), (if j = 0 ∨ 2 * j = n then 1 else 2) •
          ({- Real.cos ((j : ℝ) * (2 * Real.pi / (n : ℝ)))} : Multiset ℝ) := by
  conv_lhs => rw [← Multiset.toFinset_sum_count_nsmul_eq (to_polynomial
    (CGAL.Compute_cone_boundaries_2_exact.polynomial n : CGAL.Polynomial ℝ).coeff).roots]
  rw [roots_toFinset n h, Finset.sum_image (neg_cos_injOn n h)]
  apply Finset.sum_congr rfl
  intro j hj
  have hj' : 2 * j ≤ n := by have := Finset.mem_range.1 hj; omega
  rw [Polynomial.count_roots, multiplicity_eq n j h hj']

theorem six_roots :
    (to_polynomial
      (CGAL.Compute_cone_boundaries_2_exact.polynomial 6 : CGAL.Polynomial ℝ).coeff).roots
      = (([-1, -1 / 2, -1 / 2, 1 / 2, 1 / 2, 1] : List ℝ) : Multiset ℝ) := by
  have h1 : ((1 : ℕ) : ℝ) * (2 * Real.pi / ((6 : ℕ) : ℝ)) = Real.pi / 3 := by
    push_cast
    ring
  have h2 : ((2 : ℕ) : ℝ) * (2 * Real.pi / ((6 : ℕ) : ℝ)) = 2 * Real.pi / 3 := by
    push_cast
    ring
  have h3 : ((3 : ℕ) : ℝ) * (2 * Real.pi / ((6 : ℕ) : ℝ)) = Real.pi := by
    push_cast
    ring
  have h0 : ((0 : ℕ) : ℝ) * (2 * Real.pi / ((6 : ℕ) : ℝ)) = 0 := by
    push_cast
    ring
  rw [roots_eq_sum 6 (by decide)]
  have hr : (6 : ℕ) / 2 + 1 = 4 := rfl
  rw [hr, Finset.sum_range_succ, Finset.sum_range_succ, Finset.sum_range_succ,
    Finset.sum_range_one, h0, h1, h2, h3, Real.cos_zero, Real.cos_pi_div_three,
    cos_two_pi_div_three, Real.cos_pi]
  norm_num [two_nsmul]
  change _ = (-1 : ℝ) ::ₘ (-(1 / 2)) ::ₘ (-(1 / 2)) ::ₘ (1 / 2) ::ₘ (1 / 2) ::ₘ {1}
  simp only [← Multiset.singleton_add]
  abel

theorem six_sorted_roots :
    Multiset.sort (fun a b : ℝ => a ≤ b) (to_polynomial
      (CGAL.Compute_cone_boundaries_2_exact.polynomial 6 : CGAL.Polynomial ℝ).coeff).roots
      = [-1, -1 / 2, -1 / 2, 1 / 2, 1 / 2, 1] := by
  apply List.eq_of_perm_of_sorted (r := fun a b : ℝ => a ≤ b)
  · apply Multiset.coe_eq_coe.1
    rw [Multiset.sort_eq, six_roots]
  · exact Multiset.sort_sorted _ _
  · norm_num [List.Sorted]

theorem root_of_with_multiplicity_six (k : ℕ) :
    root_of_with_multiplicity k
        (CGAL.Compute_cone_boundaries_2_exact.polynomial 6 : CGAL.Polynomial ℝ).coeff
      = ([-1, -1 / 2, -1 / 2, 1 / 2, 1 / 2, 1] : List ℝ).getD (k - 1) 0 := by
  rw [root_of_with_multiplicity, six_sorted_roots]

theorem sqrt_three_quarters : Real.sqrt (1 - 1 / 2 * (1 / 2)) = Real.sqrt 3 / 2 := by
  have hpi := Real.pi_pos
  have := sqrt_one_sub_cos_sq (Real.pi / 3) (by positivity) (by linarith)
  rw [Real.cos_pi_div_three, Real.sin_pi_div_three] at this
  exact this

theorem first_ray_with_multiplicity_six (k : ℕ) (hk : k = 2 ∨ k = 3) :
    first_ray root_of_with_multiplicity Real.sqrt
        (CGAL.Compute_cone_boundaries_2_exact.polynomial 6) ⟨1, 0⟩ k
      = ⟨1 / 2, Real.sqrt 3 / 2⟩ := by
  have hroot : root_of_with_multiplicity k
      (CGAL.Compute_cone_boundaries_2_exact.polynomial 6 : CGAL.Polynomial ℝ).coeff
      = -(1 / 2) := by
    rw [root_of_with_multiplicity_six]
    rcases hk with rfl | rfl <;> norm_num
  simp only [first_ray, hroot, neg_neg, sqrt_three_quarters,
    CGAL.Aff_transformation_2.transform]
  apply direction_ext <;> simp

theorem exact_with_multiplicity_six :
    (exact_with_multiplicity 6 ⟨1, 0⟩).result[1]? = some ⟨1 / 2, Real.sqrt 3 / 2⟩ ∧
      (exact_with_multiplicity 6 ⟨1, 0⟩).result[2]? = some ⟨1 / 2, Real.sqrt 3 / 2⟩ := by
  rw [exact_with_multiplicity, exact_shape_even _ _ _ (by decide) (by decide) (by decide)]
  have hr : List.range' 1 (6 / 2) = [1, 2, 3] := by decide
  simp only [CGAL.State.init, List.nil_append, hr, List.map_cons, List.map_nil,
    first_ray_with_multiplicity_six 2 (Or.inl rfl),
    first_ray_with_multiplicity_six 3 (Or.inr rfl)]
  exact ⟨rfl, rfl⟩

theorem not_same_direction_six :
    ¬ CGAL.Direction_2.same_direction
      (rotate (2 * Real.pi / ((6 : ℕ) : ℝ)) ⟨1 / 2, Real.sqrt 3 / 2⟩)
      (⟨1 / 2, Real.sqrt 3 / 2⟩ : CGAL.Direction_2 ℝ) := by
  have hang : 2 * Real.pi / ((6 : ℕ) : ℝ) = Real.pi / 3 := by
    push_cast
    ring
  have h3 : Real.sqrt 3 * Real.sqrt 3 = 3 := Real.mul_self_sqrt (by norm_num)
  rintro ⟨t, ht, hx, -⟩
  simp only [rotate, hang, Real.cos_pi_div_three, Real.sin_pi_div_three] at hx
  nlinarith

/-- C15: for every `n ≥ 3` the polynomial handed to `root_of` is not square-free: every root
`-cos (2πj/n)` with `0 < j < n / 2` has multiplicity exactly 2, the root `-1`, and the root `1`
when `n` is even, is simple, and the multiplicities sum to the degree `n`.  An oracle that
ranks the roots with their multiplicities therefore does not give the equal-angle partition:
for six cones from `(1, 0)` it returns the root `-1/2` for the ranks 2 and 3, the elements 1
and 2 of the output are both `(1/2, √3/2)`, and the element 1 turned by `2π/6` is not in the
direction of the element 2. -/
theorem C15_root_multiplicities (n : ℕ) (h : 3 ≤ n) :
    ¬ Squarefree (to_polynomial
        (CGAL.Compute_cone_boundaries_2_exact.polynomial n : CGAL.Polynomial ℝ).coeff) ∧
      (∀ j : ℕ, 0 < j → 2 * j < n →
        (to_polynomial
          (CGAL.Compute_cone_boundaries_2_exact.polynomial n :
            CGAL.Polynomial ℝ).coeff).rootMultiplicity
            (- Real.cos (2 * Real.pi * (j : ℝ) / (n : ℝ))) = 2) ∧
      (to_polynomial
        (CGAL.Compute_cone_boundaries_2_exact.polynomial n :
          CGAL.Polynomial ℝ).coeff).rootMultiplicity (-1) = 1 ∧
      (n % 2 = 0 →
        (to_polynomial
          (CGAL.Compute_cone_boundaries_2_exact.polynomial n :
            CGAL.Polynomial ℝ).coeff).rootMultiplicity 1 = 1) ∧
      (to_polynomial
        (CGAL.Compute_cone_boundaries_2_exact.polynomial n :
          CGAL.Polynomial ℝ).coeff).natDegree = n ∧
      ∑ j in Finset.range (n / 2 + 1),
        (to_polynomial
          (CGAL.Compute_cone_boundaries_2_exact.polynomial n :
            CGAL.Polynomial ℝ).coeff).rootMultiplicity
            (- Real.cos (2 * Real.pi * (j : ℝ) / (n : ℝ))) = n ∧
      root_of_with_multiplicity 2
        (CGAL.Compute_cone_boundaries_2_exact.polynomial 6 : CGAL.Polynomial ℝ).coeff
          = -1 / 2 ∧
      root_of_with_multiplicity 3
        (CGAL.Compute_cone_boundaries_2_exact.polynomial 6 : CGAL.Polynomial ℝ).coeff
          = -1 / 2 ∧
      (exact_with_multiplicity 6 ⟨1, 0⟩).result[1]? = some ⟨1 / 2, Real.sqrt 3 / 2⟩ ∧
      (exact_with_multiplicity 6 ⟨1, 0⟩).result[2]? = some ⟨1 / 2, Real.sqrt 3 / 2⟩ ∧
      ¬ CGAL.Direction_2.same_direction
        (rotate (2 * Real.pi / ((6 : ℕ) : ℝ)) ⟨1 / 2, Real.sqrt 3 / 2⟩)
        (⟨1 / 2, Real.sqrt 3 / 2⟩ : CGAL.Direction_2 ℝ) := by
  have h1 : 1 ≤ n := by omega
  have hang : ∀ j : ℕ, 2 * Real.pi * (j : ℝ) / (n : ℝ) = (j : ℝ) * (2 * Real.pi / (n : ℝ)) :=
    fun j => by ring
  have hinner : ∀ j : ℕ, 0 < j → 2 * j < n →
      (to_polynomial
        (CGAL.Compute_cone_boundaries_2_exact.polynomial n :
          CGAL.Polynomial ℝ).coeff).rootMultiplicity
          (- Real.cos (2 * Real.pi * (j : ℝ) / (n : ℝ))) = 2 := by
    intro j hj0 hj
    have hc : ¬ (j = 0 ∨ 2 * j = n) := by omega
    rw [hang, multiplicity_eq n j h1 (by omega), if_neg hc]
  refine ⟨?_, hinner, ?_, ?_, real_polynomial_natDegree n h1, ?_,
    ?_, ?_, exact_with_multiplicity_six.1, exact_with_multiplicity_six.2,
    not_same_direction_six⟩
  · intro hsq
    have hdvd := Polynomial.pow_rootMultiplicity_dvd (to_polynomial
      (CGAL.Compute_cone_boundaries_2_exact.polynomial n : CGAL.Polynomial ℝ).coeff)
      (- Real.cos (2 * Real.pi * ((1 : ℕ) : ℝ) / (n : ℝ)))
    rw [hinner 1 (by decide) (by omega), pow_two] at hdvd
    exact Polynomial.not_isUnit_X_sub_C _ (hsq _ hdvd)
  · have := multiplicity_eq n 0 h1 (by omega)
    simpa using this
  · intro he
    have := multiplicity_eq n (n / 2) h1 (by omega)
    rw [half_angle n (by omega) he, Real.cos_pi, neg_neg] at this
    rw [this, if_pos (Or.inr (by omega))]
  · refine Eq.trans (Finset.sum_congr rfl ?_) (multiplicity_sum n h1)
    intro j _
    rw [hang]
  · rw [root_of_with_multiplicity_six]
    norm_num
  · rw [root_of_with_multiplicity_six]
    norm_num

/-- The statement of C15 for six cones: the polynomial is not square-free, its root
`-cos (2π/6)` is double and its multiplicities sum to 6. -/
theorem C15_root_multiplicities_witness :
    3 ≤ 6 ∧
      ¬ Squarefree (to_polynomial
        (CGAL.Compute_cone_boundaries_2_exact.polynomial 6 : CGAL.Polynomial ℝ).coeff) ∧
      (∀ j : ℕ, 0 < j → 2 * j < 6 →
        (to_polynomial
          (CGAL.Compute_cone_boundaries_2_exact.polynomial 6 :
            CGAL.Polynomial ℝ).coeff).rootMultiplicity
            (- Real.cos (2 * Real.pi * (j : ℝ) / ((6 : ℕ) : ℝ))) = 2) ∧
      ∑ j in Finset.range (6 / 2 + 1),
        (to_polynomial
          (CGAL.Compute_cone_boundaries_2_exact.polynomial 6 :
            CGAL.Polynomial ℝ).coeff).rootMultiplicity
            (- Real.cos (2 * Real.pi * (j : ℝ) / ((6 : ℕ) : ℝ))) = 6 :=
  ⟨by decide, (C15_root_multiplicities 6 (by decide)).1,
    (C15_root_multiplicities 6 (by decide)).2.1,
    (C15_root_multiplicities 6 (by decide)).2.2.2.2.2.1⟩

end ConeBoundaries
